import Mathlib

/-!
Verification development for the Data-compression repository
(src/数据压缩实验/code.py). The three encoders — huffman_compress,
arithmetic_compress and lzw_compress — are embedded as executable Lean
functions over lists of byte values (ℕ), and the specification claims
about them are settled below. Python Decimal arithmetic at
getcontext().prec = 1000 (ROUND_HALF_EVEN) is modelled value-wise on ℚ:
every context operation returns the exact result rounded to 1000
significant decimal digits.
-/

set_option maxRecDepth 100000

/-! ### Bit packing, shared by the three encoders
The source repeats the identical padding/packing code in each encoder:
compute padding = 8 - len % 8, append that many zero characters unless
padding = 8, then take int(chunk, 2) over successive 8-character chunks. -/

/-- Value of a digit string in base 2, as computed by Python int(s, 2)
on a string of 0/1 digit characters (first digit most significant). -/
def int2 (digits : List ℕ) : ℕ := digits.foldl (fun a d => 2 * a + d) 0

/-- The padding step: encoded_bits += '0' * (8 - len % 8) unless that count is 8. -/
def padBits (bits : List ℕ) : List ℕ :=
  let padding := 8 - bits.length % 8
  if padding ≠ 8 then bits ++ List.replicate padding 0 else bits

/-- The grouping loop over range(0, len(bits), 8), fuelled. -/
def packLoop : List ℕ → ℕ → List ℕ
  | _, 0 => []
  | bits, fuel+1 => if bits = [] then [] else int2 (bits.take 8) :: packLoop (bits.drop 8) fuel

/-- bytes_list = [int(bits[i:i+8], 2) for i in range(0, len(bits), 8)]. -/
def packBytes (bits : List ℕ) : List ℕ := packLoop bits bits.length

/-- The result record each encoder returns. Time is constant 0 in the
source and omitted. compression_ratio is len(bytes_list)/len(text_bytes)
when the input is non-empty, else 0. -/
structure EncodeResult where
  original_size : ℕ
  compressed_size : ℕ
  compression_ratio : ℚ
deriving DecidableEq

/-- Shared final step of the three encoders: sizes and ratio. -/
def mkResult (input : List ℕ) (bytes_list : List ℕ) : EncodeResult :=
  { original_size := input.length
    compressed_size := bytes_list.length
    compression_ratio :=
      if input ≠ [] then (bytes_list.length : ℚ) / (input.length : ℚ) else 0 }

/-! ### Frequency model (defaultdict(int) filled in input order) -/

/-- Python dict key order: first occurrence order of the bytes. -/
def firstKeys (input : List ℕ) : List ℕ :=
  input.foldl (fun acc b => if b ∈ acc then acc else acc ++ [b]) []

/-- freq.items(): (byte, count) pairs in first-occurrence order. -/
def freqItems (input : List ℕ) : List (ℕ × ℕ) :=
  (firstKeys input).map fun b => (b, input.count b)

/-! ### Huffman encoder.
HuffmanNode instances built by the source are either leaves carrying a
byte or internal nodes carrying two children; comparison is by freq only.
The heap is CPython heapq: heappush appends then sifts the new item
toward the root, heappop removes the root, moves the last element there
and sifts it down. Both sift loops are modelled with explicit fuel
(the loops make at most pos, respectively length, iterations). -/

inductive HuffmanNode where
  | leaf (freq : ℕ) (byte : ℕ)
  | node (freq : ℕ) (left right : HuffmanNode)
deriving DecidableEq

def HuffmanNode.freq : HuffmanNode → ℕ
  | .leaf f _ => f
  | .node f _ _ => f

def dummyNode : HuffmanNode := .leaf 0 0

/-- CPython heapq._siftdown: move newitem from pos toward the root while
it is smaller than its parent, shifting parents down. -/
def siftdownLoop : List HuffmanNode → ℕ → ℕ → HuffmanNode → ℕ → List HuffmanNode
  | heap, _, pos, newitem, 0 => heap.set pos newitem
  | heap, startpos, pos, newitem, fuel+1 =>
    if startpos < pos then
      let parentpos := (pos - 1) / 2
      let parent := heap.getD parentpos dummyNode
      if newitem.freq < parent.freq then
        siftdownLoop (heap.set pos parent) startpos parentpos newitem fuel
      else heap.set pos newitem
    else heap.set pos newitem

def siftdown (heap : List HuffmanNode) (startpos pos : ℕ) : List HuffmanNode :=
  siftdownLoop heap startpos pos (heap.getD pos dummyNode) pos

def heappush (heap : List HuffmanNode) (item : HuffmanNode) : List HuffmanNode :=
  siftdown (heap ++ [item]) 0 heap.length

/-- CPython heapq._siftup: bubble the hole at pos down to a leaf along
the smaller children, place newitem there, then sift it back up. -/
def siftupLoop : List HuffmanNode → ℕ → ℕ → HuffmanNode → ℕ → List HuffmanNode
  | heap, startpos, pos, newitem, 0 => siftdown (heap.set pos newitem) startpos pos
  | heap, startpos, pos, newitem, fuel+1 =>
    let endpos := heap.length
    let childpos := 2 * pos + 1
    if childpos < endpos then
      let rightpos := childpos + 1
      let childpos2 :=
        if rightpos < endpos ∧
            ¬ (heap.getD childpos dummyNode).freq < (heap.getD rightpos dummyNode).freq
        then rightpos else childpos
      siftupLoop (heap.set pos (heap.getD childpos2 dummyNode)) startpos childpos2 newitem fuel
    else siftdown (heap.set pos newitem) startpos pos

def siftup (heap : List HuffmanNode) (pos : ℕ) : List HuffmanNode :=
  siftupLoop heap pos pos (heap.getD pos dummyNode) heap.length

/-- CPython heapq.heappop; none on the empty heap (IndexError). -/
def heappop : List HuffmanNode → Option (HuffmanNode × List HuffmanNode)
  | [] => none
  | x :: xs =>
    let lastelt := (x :: xs).getLast?.getD dummyNode
    match (x :: xs).dropLast with
    | [] => some (lastelt, [])
    | y :: ys => some (y, siftup ((y :: ys).set 0 lastelt) 0)

/-- heap = []; for byte, count in freq.items(): heappush(heap, HuffmanNode(count, byte)). -/
def initialHeap (input : List ℕ) : List HuffmanNode :=
  (freqItems input).foldl (fun h e => heappush h (HuffmanNode.leaf e.2 e.1)) []

/-- while len(heap) > 1: merge the two smallest nodes; fuelled. -/
def buildLoop : List HuffmanNode → ℕ → List HuffmanNode
  | heap, 0 => heap
  | heap, fuel+1 =>
    if 1 < heap.length then
      match heappop heap with
      | none => heap
      | some (left, h1) =>
        match heappop h1 with
        | none => h1
        | some (right, h2) =>
          buildLoop (heappush h2 (HuffmanNode.node (left.freq + right.freq) left right)) fuel
    else heap

/-- root = heapq.heappop(heap) if heap else None. -/
def huffmanRoot (input : List ℕ) : Option HuffmanNode :=
  let h := initialHeap input
  match heappop (buildLoop h h.length) with
  | some (r, _) => some r
  | none => none

/-- build_code: depth-first traversal writing 0 on left descent and 1 on
right descent; leaves record (byte, accumulated code). -/
def build_code : HuffmanNode → List ℕ → List (ℕ × List ℕ)
  | .leaf _ b, current_code => [(b, current_code)]
  | .node _ l r, current_code =>
      build_code l (current_code ++ [0]) ++ build_code r (current_code ++ [1])

/-- code_table as a key/code association list (keys are distinct). -/
def code_table (input : List ℕ) : List (ℕ × List ℕ) :=
  match huffmanRoot input with
  | some root => build_code root []
  | none => []

/-- Dictionary lookup code_table[byte]. -/
def dictGet (t : List (ℕ × List ℕ)) (b : ℕ) : List ℕ :=
  ((t.find? fun e => e.1 == b).map fun e => e.2).getD []

/-- encoded_bits = ''.join(code_table[byte] for byte in text_bytes). -/
def huffmanBits (input : List ℕ) : List ℕ :=
  input.flatMap fun b => dictGet (code_table input) b

def huffman_compress (input : List ℕ) : EncodeResult :=
  mkResult input (packBytes (padBits (huffmanBits input)))

/-! ### LZW encoder -/

/-- dictionary = {bytes([i]): i for i in range(256)}. -/
def lzwInit : List (List ℕ × ℕ) := (List.range 256).map fun i => ([i], i)

structure LZWState where
  dictionary : List (List ℕ × ℕ)
  next_code : ℕ
  s : List ℕ
  encoded : List ℕ
deriving DecidableEq

/-- dictionary[k] for a byte-string key. -/
def dictLookup (d : List (List ℕ × ℕ)) (k : List ℕ) : ℕ :=
  ((d.find? fun e => e.1 == k).map fun e => e.2).getD 0

/-- One iteration of the LZW loop body over the current byte. -/
def lzwStep (st : LZWState) (byte : ℕ) : LZWState :=
  let sc := st.s ++ [byte]
  if (st.dictionary.find? fun e => e.1 == sc).isSome then
    { st with s := sc }
  else
    { dictionary := st.dictionary ++ [(sc, st.next_code)]
      next_code := st.next_code + 1
      s := [byte]
      encoded := st.encoded ++ [dictLookup st.dictionary st.s] }

def lzwRun (input : List ℕ) : LZWState :=
  input.foldl lzwStep ⟨lzwInit, 256, [], []⟩

/-- The emitted code sequence, with the final if s: encoded.append(dictionary[s]). -/
def lzwEncoded (input : List ℕ) : List ℕ :=
  let st := lzwRun input
  if st.s ≠ [] then st.encoded ++ [dictLookup st.dictionary st.s] else st.encoded

/-- Python format(n, 'b'): shortest binary digit string, '0' for zero;
fuelled division loop. -/
def binAux : ℕ → ℕ → List ℕ
  | _, 0 => []
  | n, fuel+1 => if n = 0 then [] else binAux (n / 2) fuel ++ [n % 2]

def format_b (n : ℕ) : List ℕ := if n = 0 then [0] else binAux n n

/-- Python format(code, '012b'): zero-pad on the left to a minimum width
of 12; wider numbers keep their full length. -/
def format012b (code : ℕ) : List ℕ :=
  let d := format_b code
  if d.length < 12 then List.replicate (12 - d.length) 0 ++ d else d

/-- bits_str = ''.join(format(code, '012b') for code in encoded). -/
def lzwBits (input : List ℕ) : List ℕ := (lzwEncoded input).flatMap format012b

def lzw_compress (input : List ℕ) : EncodeResult :=
  mkResult input (packBytes (padBits (lzwBits input)))

/-- Reverse lookup: the dictionary string a code was assigned to. -/
def codeToStr (d : List (List ℕ × ℕ)) (c : ℕ) : List ℕ :=
  ((d.find? fun e => e.2 == c).map fun e => e.1).getD []

/-! ### Python Decimal at getcontext().prec = 1000, modelled value-wise.
A context operation returns the exact rational result rounded to 1000
significant decimal digits with ROUND_HALF_EVEN. ctxRound implements that
rounding on ℚ: write |q| = c * 10 ^ (e - 999) with 10 ^ 999 ≤ c < 10 ^ 1000
(e the adjusted exponent) and round c to an integer, ties to even. -/

/-- Integer part of a non-negative rational (also Python int() there). -/
def iFloor (q : ℚ) : ℕ := q.num.toNat / q.den

/-- Least k ≤ fuel with d ≤ n * 10 ^ k; tail-recursive accumulator form
(fuel exhaustion returns the accumulated count). -/
def findE10A : ℕ → ℕ → ℕ → ℕ → ℕ
  | _, _, k, 0 => k
  | n, d, k, fuel+1 => if d ≤ n then k else findE10A (n * 10) d (k + 1) fuel

/-- Least k ≤ fuel with d ≤ n * 10 ^ k (fuel exhaustion gives fuel). -/
def findE10 (n d fuel : ℕ) : ℕ := findE10A n d 0 fuel

/-- Proof-side restatement of findE10A without the accumulator. -/
def findE10X : ℕ → ℕ → ℕ → ℕ
  | _, _, 0 => 0
  | n, d, fuel+1 => if d ≤ n then 0 else findE10X (n * 10) d fuel + 1

/-- Number of decimal digits of n minus one, fuelled. -/
def digitsLen : ℕ → ℕ → ℕ
  | _, 0 => 0
  | n, fuel+1 => if n < 10 then 0 else digitsLen (n / 10) fuel + 1

/-- Round a non-negative rational to an integer, ties to even. -/
def rhe (q : ℚ) : ℕ :=
  let f := iFloor q
  if q - (f : ℚ) < 1/2 then f
  else if 1/2 < q - (f : ℚ) then f + 1
  else if f % 2 = 0 then f else f + 1

/-- Adjusted exponent of a positive rational: the unique e with
10 ^ e ≤ q < 10 ^ (e+1). -/
def adjE (q : ℚ) : ℤ :=
  if 1 ≤ q then (digitsLen (iFloor q) (iFloor q) : ℤ)
  else -(findE10 q.num.toNat q.den q.den : ℤ)

/-- Integer powers of ten in ℚ, computed through ℕ powers. -/
def tpowZ (k : ℤ) : ℚ :=
  if 0 ≤ k then ((10 ^ k.toNat : ℕ) : ℚ) else Rat.divInt 1 (10 ^ (-k).toNat : ℕ)

/-- Round a positive rational to 1000 significant decimal digits. -/
def posRound (q : ℚ) : ℚ :=
  let e := adjE q
  (rhe (q * tpowZ (999 - e)) : ℚ) * tpowZ (e - 999)

/-- Result of a prec-1000 ROUND_HALF_EVEN Decimal context operation. -/
def ctxRound (q : ℚ) : ℚ :=
  if q = 0 then 0 else if q < 0 then -(posRound (-q)) else posRound q

def decAdd (a b : ℚ) : ℚ := ctxRound (a + b)

def decSub (a b : ℚ) : ℚ := ctxRound (a - b)

def decMul (a b : ℚ) : ℚ := ctxRound (a * b)

def decDiv (a b : ℚ) : ℚ := ctxRound (a / b)

/-! ### Arithmetic encoder -/

/-- sorted(freq.keys()). -/
def sortedKeys (input : List ℕ) : List ℕ :=
  List.insertionSort (· ≤ ·) (firstKeys input)

/-- total = sum(freq.values()). -/
def arithTotal (input : List ℕ) : ℕ :=
  ((freqItems input).map fun e => e.2).sum

/-- The cumulative probability loop: for byte in sorted(freq.keys()):
prob = count/total; cum_prob[byte] = (current, current + prob);
current += prob. All three arithmetic operations are context-rounded. -/
def cumGo (input : List ℕ) : List ℕ → ℚ → List (ℕ × ℚ × ℚ)
  | [], _ => []
  | b :: rest, current =>
    let prob := decDiv (input.count b : ℚ) (arithTotal input : ℚ)
    (b, current, decAdd current prob) :: cumGo input rest (decAdd current prob)

/-- cum_prob as an association list keyed by byte, in ascending order. -/
def cum_prob (input : List ℕ) : List (ℕ × ℚ × ℚ) :=
  cumGo input (sortedKeys input) 0

/-- cum_prob[byte]. -/
def cumLookup (t : List (ℕ × ℚ × ℚ)) (b : ℕ) : ℚ × ℚ :=
  ((t.find? fun e => e.1 == b).map fun e => e.2).getD (0, 0)

/-- Loop body: range_size = high - low; high = low + range_size * char_high;
low = low + range_size * char_low (both updates read the old low). -/
def arithStep (t : List (ℕ × ℚ × ℚ)) (lh : ℚ × ℚ) (b : ℕ) : ℚ × ℚ :=
  let char_low := (cumLookup t b).1
  let char_high := (cumLookup t b).2
  let range_size := decSub lh.2 lh.1
  (decAdd lh.1 (decMul range_size char_low), decAdd lh.1 (decMul range_size char_high))

/-- The interval after narrowing over the whole input from (0, 1). -/
def arithFinal (input : List ℕ) : ℚ × ℚ :=
  input.foldl (arithStep (cum_prob input)) (0, 1)

/-- The binary fraction loop: value *= 2 (context), bit = int(value),
value -= bit (context), stop after the append once value == 0; at most
1024 bits. -/
def arithBitsLoop : ℚ → ℕ → List ℕ
  | _, 0 => []
  | v, fuel+1 =>
    let v2 := decMul v 2
    let bit := iFloor v2
    let v3 := decSub v2 (bit : ℚ)
    bit :: (if v3 = 0 then [] else arithBitsLoop v3 fuel)

/-- binary_str for value = low, the lower end of the final interval. -/
def arithBits (input : List ℕ) : List ℕ :=
  arithBitsLoop (arithFinal input).1 1024

def arithmetic_compress (input : List ℕ) : EncodeResult :=
  mkResult input (packBytes (padBits (arithBits input)))

/-! ### Auxiliary spec-side notions used by the claims -/

/-- Binary place value with the first digit most significant, written as
a sum, following the spec wording for the packing contract. -/
def specVal (l : List ℕ) : ℕ :=
  ((List.range l.length).map fun i => l.getD i 0 * 2 ^ (l.length - 1 - i)).sum

/-- The interval list forms a contiguous chain starting at c: each entry
has lower bound equal to the running cursor and moves the cursor to its
upper bound. -/
def chainFromB : ℚ → List (ℕ × ℚ × ℚ) → Bool
  | _, [] => true
  | c, e :: rest => decide (e.2.1 = c) && chainFromB e.2.2 rest

/-- Final cursor value of the chain. -/
def chainEnd : ℚ → List (ℕ × ℚ × ℚ) → ℚ
  | c, [] => c
  | _, e :: rest => chainEnd e.2.2 rest

/-- Leaves of a Huffman tree in traversal order. -/
def leavesOf : HuffmanNode → List ℕ
  | .leaf _ b => [b]
  | .node _ l r => leavesOf l ++ leavesOf r

/-- All leaves of all trees in a heap. -/
def heapLeaves (heap : List HuffmanNode) : List ℕ :=
  (heap.map leavesOf).flatten

/-! ### Permutation facts about the heap operations -/

theorem set_getD_self : ∀ (l : List HuffmanNode) (k : ℕ) (d : HuffmanNode),
    l.set k (l.getD k d) = l
  | [], _, _ => by simp
  | x :: xs, 0, d => by simp [List.getD]
  | x :: xs, k+1, d => by
      simp only [List.set_cons_succ, List.getD_cons_succ]
      rw [set_getD_self xs k d]

theorem getD_set_ne (l : List HuffmanNode) (i j : ℕ) (a d : HuffmanNode) (h : i ≠ j) :
    (l.set i a).getD j d = l.getD j d := by
  simp only [List.getD_eq_getElem?_getD]
  rw [List.getElem?_set_ne h]

theorem set_cons_comm : ∀ (l : List HuffmanNode) (k : ℕ) (a b : HuffmanNode),
    k < l.length → List.Perm (a :: l.set k b) (b :: l.set k a)
  | [], k, a, b, h => by simp at h
  | x :: xs, 0, a, b, _ => by
      simp only [List.set_cons_zero]
      exact List.Perm.swap b a xs
  | x :: xs, k+1, a, b, h => by
      simp only [List.set_cons_succ]
      have h1 : List.Perm (a :: x :: xs.set k b) (x :: a :: xs.set k b) :=
        List.Perm.swap x a _
      have h2 : List.Perm (x :: a :: xs.set k b) (x :: b :: xs.set k a) :=
        List.Perm.cons x (set_cons_comm xs k a b (Nat.lt_of_succ_lt_succ (by simpa using h)))
      have h3 : List.Perm (x :: b :: xs.set k a) (b :: x :: xs.set k a) :=
        List.Perm.swap b x _
      exact (h1.trans h2).trans h3


theorem set_set_perm : ∀ (l : List HuffmanNode) (i j : ℕ) (a b : HuffmanNode),
    i < l.length → j < l.length → i ≠ j →
    List.Perm ((l.set i a).set j b) ((l.set i b).set j a)
  | [], i, j, a, b, hi, _, _ => by simp at hi
  | x :: xs, 0, 0, a, b, _, _, hne => absurd rfl hne
  | x :: xs, 0, j+1, a, b, _, hj, _ => by
      simp only [List.set_cons_zero, List.set_cons_succ]
      exact set_cons_comm xs j a b (Nat.lt_of_succ_lt_succ (by simpa using hj))
  | x :: xs, i+1, 0, a, b, hi, _, _ => by
      simp only [List.set_cons_zero, List.set_cons_succ]
      exact (set_cons_comm xs i a b (Nat.lt_of_succ_lt_succ (by simpa using hi))).symm
  | x :: xs, i+1, j+1, a, b, hi, hj, hne => by
      simp only [List.set_cons_succ]
      exact List.Perm.cons x
        (set_set_perm xs i j a b (Nat.lt_of_succ_lt_succ (by simpa using hi))
          (Nat.lt_of_succ_lt_succ (by simpa using hj)) (fun h => hne (by omega)))

theorem siftdownLoop_length (fuel : ℕ) : ∀ (heap : List HuffmanNode) (s p : ℕ) (x : HuffmanNode),
    (siftdownLoop heap s p x fuel).length = heap.length := by
  induction fuel with
  | zero => intro heap s p x; simp [siftdownLoop]
  | succ fuel ih =>
      intro heap s p x
      simp only [siftdownLoop]
      split
      · split
        · rw [ih]; simp
        · simp
      · simp

theorem siftdownLoop_perm (fuel : ℕ) : ∀ (heap : List HuffmanNode) (s p : ℕ) (x : HuffmanNode),
    p < heap.length →
    List.Perm (siftdownLoop heap s p x fuel) (heap.set p x) := by
  induction fuel with
  | zero => intro heap s p x _; simp [siftdownLoop]
  | succ fuel ih =>
      intro heap s p x hp
      simp only [siftdownLoop]
      split
      · rename_i hsp
        split
        · have hpar : (p - 1) / 2 < p := by omega
          have hparlen : (p - 1) / 2 < heap.length := lt_trans hpar hp
          have h1 := ih (heap.set p (heap.getD ((p - 1) / 2) dummyNode)) s ((p - 1) / 2) x
            (by simpa using hparlen)
          refine h1.trans ?_
          have h2 := set_set_perm heap p ((p - 1) / 2) (heap.getD ((p - 1) / 2) dummyNode) x
            hp hparlen (by omega)
          refine h2.trans ?_
          rw [getD_set_ne heap p ((p - 1) / 2) x dummyNode (by omega) |>.symm]
          rw [set_getD_self]
        · exact List.Perm.refl _
      · exact List.Perm.refl _

theorem siftdown_perm (heap : List HuffmanNode) (s p : ℕ) (hp : p < heap.length) :
    List.Perm (siftdown heap s p) heap := by
  unfold siftdown
  have h := siftdownLoop_perm p heap s p (heap.getD p dummyNode) hp
  rwa [set_getD_self] at h

theorem siftdown_length (heap : List HuffmanNode) (s p : ℕ) :
    (siftdown heap s p).length = heap.length := by
  unfold siftdown; exact siftdownLoop_length p heap s p _

theorem heappush_perm (heap : List HuffmanNode) (x : HuffmanNode) :
    List.Perm (heappush heap x) (x :: heap) := by
  unfold heappush
  have h1 : heap.length < (heap ++ [x]).length := by simp
  refine (siftdown_perm (heap ++ [x]) 0 heap.length h1).trans ?_
  exact List.perm_append_singleton x heap

theorem heappush_length (heap : List HuffmanNode) (x : HuffmanNode) :
    (heappush heap x).length = heap.length + 1 := by
  unfold heappush
  rw [siftdown_length]; simp

theorem siftupLoop_length (fuel : ℕ) : ∀ (heap : List HuffmanNode) (s p : ℕ) (x : HuffmanNode),
    (siftupLoop heap s p x fuel).length = heap.length := by
  induction fuel with
  | zero => intro heap s p x; simp [siftupLoop, siftdown_length]
  | succ fuel ih =>
      intro heap s p x
      simp only [siftupLoop]
      split
      · rw [ih]; simp
      · rw [siftdown_length]; simp

theorem siftupLoop_perm (fuel : ℕ) : ∀ (heap : List HuffmanNode) (s p : ℕ) (x : HuffmanNode),
    p < heap.length →
    List.Perm (siftupLoop heap s p x fuel) (heap.set p x) := by
  induction fuel with
  | zero =>
      intro heap s p x hp
      simp only [siftupLoop]
      exact siftdown_perm _ s p (by simpa using hp)
  | succ fuel ih =>
      intro heap s p x hp
      simp only [siftupLoop]
      split
      · rename_i hchild
        set c2 := if 2 * p + 1 + 1 < heap.length ∧
            ¬ (heap.getD (2 * p + 1) dummyNode).freq < (heap.getD (2 * p + 1 + 1) dummyNode).freq
          then 2 * p + 1 + 1 else 2 * p + 1 with hc2
        have hc2len : c2 < heap.length := by
          rw [hc2]; split
          · rename_i hcond; exact hcond.1
          · exact hchild
        have hc2ne : p ≠ c2 := by rw [hc2]; split <;> omega
        have h1 := ih (heap.set p (heap.getD c2 dummyNode)) s c2 x (by simpa using hc2len)
        refine h1.trans ?_
        have h2 := set_set_perm heap p c2 (heap.getD c2 dummyNode) x hp hc2len hc2ne
        refine h2.trans ?_
        rw [getD_set_ne heap p c2 x dummyNode hc2ne |>.symm, set_getD_self]
      · exact siftdown_perm _ s p (by simpa using hp)

theorem siftup_perm (heap : List HuffmanNode) (p : ℕ) (hp : p < heap.length) :
    List.Perm (siftup heap p) heap := by
  unfold siftup
  have h := siftupLoop_perm heap.length heap p p (heap.getD p dummyNode) hp
  rwa [set_getD_self] at h

theorem siftup_length (heap : List HuffmanNode) (p : ℕ) :
    (siftup heap p).length = heap.length := by
  unfold siftup; exact siftupLoop_length _ heap p p _

theorem heappop_perm (heap : List HuffmanNode) (x : HuffmanNode) (h2 : List HuffmanNode)
    (h : heappop heap = some (x, h2)) : List.Perm (x :: h2) heap := by
  match heap with
  | [] => simp [heappop] at h
  | a :: as =>
    simp only [heappop] at h
    rcases hlast : (a :: as).getLast? with _ | g
    · simp at hlast
    have hdec : (a :: as).dropLast ++ [g] = a :: as :=
      List.dropLast_append_getLast? g hlast
    rcases hdl : (a :: as).dropLast with _ | ⟨y, ys⟩
    · rw [hdl] at hdec
      rw [hlast, hdl] at h
      simp only [Option.getD_some, Option.some.injEq, Prod.mk.injEq] at h
      obtain ⟨hx, hh2⟩ := h
      rw [← hdec, ← hx, ← hh2]
      exact List.Perm.refl _
    · rw [hlast, hdl] at h
      simp only [Option.getD_some, Option.some.injEq, Prod.mk.injEq] at h
      obtain ⟨hx, hh2⟩ := h
      have hsift : List.Perm (siftup ((y :: ys).set 0 g) 0) ((y :: ys).set 0 g) :=
        siftup_perm _ 0 (by simp)
      have : List.Perm (x :: h2) (y :: g :: ys) := by
        rw [← hx, ← hh2]
        exact List.Perm.cons y (by simpa using hsift)
      refine this.trans ?_
      have hyg : List.Perm (y :: g :: ys) (y :: ys ++ [g]) :=
        List.Perm.cons y (List.perm_append_singleton g ys).symm
      refine hyg.trans ?_
      rw [← hdl, hdec]

theorem heappop_none (heap : List HuffmanNode) (h : heappop heap = none) : heap = [] := by
  match heap with
  | [] => rfl
  | a :: as =>
    simp only [heappop] at h
    rcases hdl : (a :: as).dropLast with _ | ⟨y, ys⟩ <;> rw [hdl] at h <;> simp at h

theorem heappop_length (heap : List HuffmanNode) (x : HuffmanNode) (h2 : List HuffmanNode)
    (h : heappop heap = some (x, h2)) : h2.length + 1 = heap.length :=
  (heappop_perm heap x h2 h).length_eq

theorem heapLeaves_perm {h1 h2 : List HuffmanNode} (h : List.Perm h1 h2) :
    List.Perm (heapLeaves h1) (heapLeaves h2) := (h.map leavesOf).flatten

theorem heapLeaves_cons (x : HuffmanNode) (h : List HuffmanNode) :
    heapLeaves (x :: h) = leavesOf x ++ heapLeaves h := by
  simp [heapLeaves]

theorem buildLoop_leaves (fuel : ℕ) : ∀ heap : List HuffmanNode,
    List.Perm (heapLeaves (buildLoop heap fuel)) (heapLeaves heap) := by
  induction fuel with
  | zero => intro heap; simp [buildLoop]
  | succ fuel ih =>
      intro heap
      simp only [buildLoop]
      split
      · rename_i hlen
        rcases hp1 : heappop heap with _ | ⟨l, h1⟩
        · exact List.Perm.refl _
        · rcases hp2 : heappop h1 with _ | ⟨r, h2⟩
          · have h1e : h1 = [] := heappop_none h1 hp2
            have hl := heappop_length heap l h1 hp1
            rw [h1e] at hl
            simp only [List.length_nil] at hl
            omega
          · dsimp only
            rw [hp2]
            dsimp only
            refine (ih _).trans ?_
            refine (heapLeaves_perm (heappush_perm h2 _)).trans ?_
            rw [heapLeaves_cons]
            have hperm2 : List.Perm (heapLeaves (r :: h2)) (heapLeaves h1) :=
              heapLeaves_perm (heappop_perm h1 r h2 hp2)
            rw [heapLeaves_cons] at hperm2
            have hperm1 : List.Perm (heapLeaves (l :: h1)) (heapLeaves heap) :=
              heapLeaves_perm (heappop_perm heap l h1 hp1)
            rw [heapLeaves_cons] at hperm1
            have step1 : List.Perm
                (leavesOf (HuffmanNode.node (l.freq + r.freq) l r) ++ heapLeaves h2)
                (leavesOf l ++ (leavesOf r ++ heapLeaves h2)) := by
              simp [leavesOf, List.append_assoc]
            refine step1.trans ?_
            refine (List.Perm.append_left (leavesOf l) hperm2).trans ?_
            exact hperm1
      · exact List.Perm.refl _

theorem buildLoop_length_le (fuel : ℕ) : ∀ heap : List HuffmanNode,
    heap.length ≤ fuel + 1 → (buildLoop heap fuel).length ≤ 1 := by
  induction fuel with
  | zero =>
      intro heap hf
      simp only [buildLoop]
      omega
  | succ fuel ih =>
      intro heap hf
      simp only [buildLoop]
      split
      · rename_i hlen
        rcases hp1 : heappop heap with _ | ⟨l, h1⟩
        · have := heappop_none heap hp1
          rw [this] at hlen
          simp at hlen
        · rcases hp2 : heappop h1 with _ | ⟨r, h2⟩
          · have h1e : h1 = [] := heappop_none h1 hp2
            have hl := heappop_length heap l h1 hp1
            rw [h1e] at hl
            simp only [List.length_nil] at hl
            omega
          · dsimp only
            rw [hp2]
            dsimp only
            apply ih
            have e1 := heappop_length heap l h1 hp1
            have e2 := heappop_length h1 r h2 hp2
            rw [heappush_length]
            omega
      · rename_i hlen
        omega

theorem buildLoop_length_pos (fuel : ℕ) : ∀ heap : List HuffmanNode,
    0 < heap.length → 0 < (buildLoop heap fuel).length := by
  induction fuel with
  | zero => intro heap h; simpa [buildLoop] using h
  | succ fuel ih =>
      intro heap hpos
      simp only [buildLoop]
      split
      · rename_i hlen
        rcases hp1 : heappop heap with _ | ⟨l, h1⟩
        · exact hpos
        · rcases hp2 : heappop h1 with _ | ⟨r, h2⟩
          · have h1e : h1 = [] := heappop_none h1 hp2
            have hl := heappop_length heap l h1 hp1
            rw [h1e] at hl
            simp only [List.length_nil] at hl
            omega
          · dsimp only
            rw [hp2]
            dsimp only
            apply ih
            rw [heappush_length]
            omega
      · exact hpos

/-! ### The frequency table keys: distinct, and exactly the input bytes -/

theorem firstKeys_aux_nodup (l : List ℕ) : ∀ acc : List ℕ, acc.Nodup →
    (l.foldl (fun acc b => if b ∈ acc then acc else acc ++ [b]) acc).Nodup := by
  induction l with
  | nil => intro acc h; simpa using h
  | cons b rest ih =>
      intro acc h
      simp only [List.foldl_cons]
      split
      · exact ih acc h
      · rename_i hnb
        refine ih (acc ++ [b]) ?_
        simp [List.nodup_append, h, hnb]

theorem firstKeys_aux_mem (l : List ℕ) : ∀ (acc : List ℕ) (x : ℕ),
    x ∈ l.foldl (fun acc b => if b ∈ acc then acc else acc ++ [b]) acc ↔ x ∈ acc ∨ x ∈ l := by
  induction l with
  | nil => intro acc x; simp
  | cons b rest ih =>
      intro acc x
      simp only [List.foldl_cons]
      split
      · rename_i hb
        rw [ih acc x]
        constructor
        · rintro (h | h)
          · exact Or.inl h
          · exact Or.inr (List.mem_cons_of_mem b h)
        · rintro (h | h)
          · exact Or.inl h
          · rcases List.mem_cons.mp h with h | h
            · exact Or.inl (h ▸ hb)
            · exact Or.inr h
      · rw [ih (acc ++ [b]) x]
        simp only [List.mem_append, List.mem_singleton, List.mem_cons]
        tauto

theorem firstKeys_nodup (input : List ℕ) : (firstKeys input).Nodup :=
  firstKeys_aux_nodup input [] List.nodup_nil

theorem firstKeys_mem (input : List ℕ) (x : ℕ) : x ∈ firstKeys input ↔ x ∈ input := by
  rw [firstKeys, firstKeys_aux_mem]
  simp

/-! ### The initial heap holds one leaf per distinct input byte -/

theorem initial_fold_leaves (items : List (ℕ × ℕ)) : ∀ acc : List HuffmanNode,
    List.Perm
      (heapLeaves (items.foldl (fun h e => heappush h (HuffmanNode.leaf e.2 e.1)) acc))
      (heapLeaves acc ++ items.map Prod.fst) := by
  induction items with
  | nil => intro acc; simp
  | cons e rest ih =>
      intro acc
      simp only [List.foldl_cons, List.map_cons]
      refine (ih (heappush acc (HuffmanNode.leaf e.2 e.1))).trans ?_
      have h1 : List.Perm (heapLeaves (heappush acc (HuffmanNode.leaf e.2 e.1)))
          (e.1 :: heapLeaves acc) := by
        refine (heapLeaves_perm (heappush_perm acc _)).trans ?_
        rw [heapLeaves_cons]
        simp [leavesOf]
      refine (List.Perm.append_right (rest.map Prod.fst) h1).trans ?_
      exact (List.perm_middle).symm

theorem initialHeap_leaves (input : List ℕ) :
    List.Perm (heapLeaves (initialHeap input)) (firstKeys input) := by
  unfold initialHeap
  refine (initial_fold_leaves (freqItems input) []).trans ?_
  have : List.map Prod.fst (freqItems input) = firstKeys input := by
    rw [freqItems, List.map_map]
    exact List.map_id _
  rw [heapLeaves]
  simp only [List.map_nil, List.flatten_nil, List.nil_append, this]
  exact List.Perm.refl _

theorem initial_fold_length (items : List (ℕ × ℕ)) : ∀ acc : List HuffmanNode,
    (items.foldl (fun h e => heappush h (HuffmanNode.leaf e.2 e.1)) acc).length
      = acc.length + items.length := by
  induction items with
  | nil => intro acc; simp
  | cons e rest ih =>
      intro acc
      simp only [List.foldl_cons, List.length_cons]
      rw [ih, heappush_length]
      omega

theorem initialHeap_length (input : List ℕ) :
    (initialHeap input).length = (firstKeys input).length := by
  unfold initialHeap
  rw [initial_fold_length]
  simp [freqItems]

/-! ### For a non-empty input the tree exists and its leaves are exactly
the distinct input bytes -/

theorem huffmanRoot_leaves (input : List ℕ) (hne : input ≠ []) :
    ∃ root, huffmanRoot input = some root ∧
      List.Perm (leavesOf root) (firstKeys input) := by
  have hkne : firstKeys input ≠ [] := by
    rcases input with _ | ⟨b, rest⟩
    · exact absurd rfl hne
    · intro h
      have : b ∈ firstKeys (b :: rest) := (firstKeys_mem _ b).mpr (List.mem_cons_self b rest)
      rw [h] at this
      simp at this
  have hpos : 0 < (initialHeap input).length := by
    rw [initialHeap_length]
    exact List.length_pos.mpr hkne
  have hfin1 : 0 < (buildLoop (initialHeap input) (initialHeap input).length).length :=
    buildLoop_length_pos _ _ hpos
  have hfin2 : (buildLoop (initialHeap input) (initialHeap input).length).length ≤ 1 :=
    buildLoop_length_le _ _ (by omega)
  rcases hpop : heappop (buildLoop (initialHeap input) (initialHeap input).length)
    with _ | ⟨root, hrest⟩
  · have := heappop_none _ hpop
    rw [this] at hfin1
    simp at hfin1
  · refine ⟨root, ?_, ?_⟩
    · rw [huffmanRoot]
      rw [hpop]
    · have hlen := heappop_length _ _ _ hpop
      have hrest_nil : hrest = [] := by
        have : hrest.length = 0 := by omega
        exact List.length_eq_zero.mp this
      have hperm := heappop_perm _ _ _ hpop
      rw [hrest_nil] at hperm
      have h1 : List.Perm (heapLeaves [root])
          (heapLeaves (buildLoop (initialHeap input) (initialHeap input).length)) :=
        heapLeaves_perm hperm
      have h2 := buildLoop_leaves (initialHeap input).length (initialHeap input)
      have h3 := initialHeap_leaves input
      have : List.Perm (heapLeaves [root]) (firstKeys input) := (h1.trans h2).trans h3
      simpa [heapLeaves, leavesOf] using this

/-! ### build_code facts -/

theorem build_code_keys (t : HuffmanNode) : ∀ p : List ℕ,
    (build_code t p).map Prod.fst = leavesOf t := by
  induction t with
  | leaf f b => intro p; simp [build_code, leavesOf]
  | node f l r ihl ihr =>
      intro p
      simp [build_code, leavesOf, ihl, ihr]

theorem build_code_shape (t : HuffmanNode) : ∀ p : List ℕ, ∀ e ∈ build_code t p,
    ∃ s, e.2 = p ++ s := by
  induction t with
  | leaf f b =>
      intro p e he
      simp only [build_code, List.mem_singleton] at he
      exact ⟨[], by simp [he]⟩
  | node f l r ihl ihr =>
      intro p e he
      simp only [build_code, List.mem_append] at he
      rcases he with he | he
      · obtain ⟨s, hs⟩ := ihl (p ++ [0]) e he
        exact ⟨0 :: s, by simp [hs]⟩
      · obtain ⟨s, hs⟩ := ihr (p ++ [1]) e he
        exact ⟨1 :: s, by simp [hs]⟩

theorem build_code_pf (t : HuffmanNode) (hnd : (leavesOf t).Nodup) :
    ∀ p : List ℕ, ∀ e1 ∈ build_code t p, ∀ e2 ∈ build_code t p,
      e1.1 ≠ e2.1 → ¬ e1.2 <+: e2.2 := by
  induction t with
  | leaf f b =>
      intro p e1 h1 e2 h2 hne
      simp only [build_code, List.mem_singleton] at h1 h2
      rw [h1, h2] at hne
      exact absurd rfl hne
  | node f l r ihl ihr =>
      have hl : (leavesOf l).Nodup := by
        rw [leavesOf, List.nodup_append] at hnd
        exact hnd.1
      have hr : (leavesOf r).Nodup := by
        rw [leavesOf, List.nodup_append] at hnd
        exact hnd.2.1
      intro p e1 h1 e2 h2 hne
      simp only [build_code, List.mem_append] at h1 h2
      rcases h1 with h1 | h1 <;> rcases h2 with h2 | h2
      · exact ihl hl (p ++ [0]) e1 h1 e2 h2 hne
      · obtain ⟨s1, hs1⟩ := build_code_shape l (p ++ [0]) e1 h1
        obtain ⟨s2, hs2⟩ := build_code_shape r (p ++ [1]) e2 h2
        rw [hs1, hs2]
        rintro ⟨tail, htail⟩
        rw [List.append_assoc, List.append_assoc, List.append_assoc] at htail
        have := List.append_cancel_left htail
        simp at this
      · obtain ⟨s1, hs1⟩ := build_code_shape r (p ++ [1]) e1 h1
        obtain ⟨s2, hs2⟩ := build_code_shape l (p ++ [0]) e2 h2
        rw [hs1, hs2]
        rintro ⟨tail, htail⟩
        rw [List.append_assoc, List.append_assoc, List.append_assoc] at htail
        have := List.append_cancel_left htail
        simp at this
      · exact ihr hr (p ++ [1]) e1 h1 e2 h2 hne

theorem find?_key_some (t : List (ℕ × List ℕ)) (b : ℕ) (h : b ∈ t.map Prod.fst) :
    ∃ e, (t.find? fun e => e.1 == b) = some e ∧ e.1 = b ∧ e ∈ t := by
  induction t with
  | nil => simp at h
  | cons e0 rest ih =>
      by_cases hb : e0.1 = b
      · refine ⟨e0, ?_, hb, List.mem_cons_self e0 rest⟩
        rw [List.find?_cons_of_pos]
        simpa using hb
      · simp only [List.map_cons, List.mem_cons] at h
        rcases h with h | h
        · exact absurd h.symm hb
        · obtain ⟨e, he, hkey, hmem⟩ := ih h
          refine ⟨e, ?_, hkey, List.mem_cons_of_mem e0 hmem⟩
          rw [List.find?_cons_of_neg]
          · exact he
          · simpa using hb

theorem dictGet_eq (t : List (ℕ × List ℕ)) (b : ℕ) (e : ℕ × List ℕ)
    (h : (t.find? fun e => e.1 == b) = some e) : dictGet t b = e.2 := by
  rw [dictGet, h]
  rfl

/-- C1. For every non-empty input byte sequence, the code table built by
huffman_compress is prefix-free: for any two distinct byte values present
in the input, the code assigned to one is not a prefix of the code
assigned to the other. -/
theorem huffman_table_prefixfree (input : List ℕ) (b1 b2 : ℕ)
    (h1 : b1 ∈ input) (h2 : b2 ∈ input) (hne : b1 ≠ b2) :
    ¬ dictGet (code_table input) b1 <+: dictGet (code_table input) b2 := by
  have hne_input : input ≠ [] := by
    intro h
    rw [h] at h1
    simp at h1
  obtain ⟨root, hroot, hperm⟩ := huffmanRoot_leaves input hne_input
  have htab : code_table input = build_code root [] := by
    rw [code_table, hroot]
  have hnd : (leavesOf root).Nodup := hperm.nodup_iff.mpr (firstKeys_nodup input)
  have hb1 : b1 ∈ leavesOf root := hperm.mem_iff.mpr ((firstKeys_mem input b1).mpr h1)
  have hb2 : b2 ∈ leavesOf root := hperm.mem_iff.mpr ((firstKeys_mem input b2).mpr h2)
  rw [← build_code_keys root []] at hb1 hb2
  obtain ⟨e1, hf1, hk1, hm1⟩ := find?_key_some _ b1 hb1
  obtain ⟨e2, hf2, hk2, hm2⟩ := find?_key_some _ b2 hb2
  rw [htab, dictGet_eq _ b1 e1 hf1, dictGet_eq _ b2 e2 hf2]
  exact build_code_pf root hnd [] e1 hm1 e2 hm2 (by rw [hk1, hk2]; exact hne)

/-- Witness for C1 at the concrete input [65, 66, 66]. -/
theorem huffman_table_prefixfree_witness :
    (65 : ℕ) ∈ [65, 66, 66] ∧ (66 : ℕ) ∈ [65, 66, 66] ∧ (65 : ℕ) ≠ 66 ∧
      ¬ dictGet (code_table [65, 66, 66]) 65 <+: dictGet (code_table [65, 66, 66]) 66 :=
  ⟨by decide, by decide, by decide,
    huffman_table_prefixfree [65, 66, 66] 65 66 (by decide) (by decide) (by decide)⟩

/-- C6 (failing input). On the single-symbol input b"ZZZZ" = [90, 90, 90, 90]
the source assigns the lone symbol the empty code, emits no bits, and
returns compressed_size = 0 — the spec requires a non-empty output. -/
theorem huffman_single_symbol_empty_output :
    (huffman_compress [90, 90, 90, 90]).compressed_size = 0 ∧
      (huffman_compress [90, 90, 90, 90]).original_size = 4 ∧
      dictGet (code_table [90, 90, 90, 90]) 90 = [] := by
  refine ⟨?_, ?_, ?_⟩ <;> decide

/-- C5. On the empty input every encoder returns compression_ratio 0
(the guarded division is skipped; no tree or dictionary failure). -/
theorem empty_input_ratio_zero :
    (huffman_compress []).compression_ratio = 0 ∧
      (arithmetic_compress []).compression_ratio = 0 ∧
      (lzw_compress []).compression_ratio = 0 := by
  refine ⟨?_, ?_, ?_⟩ <;> with_unfolding_all decide

/-- C10 (counterexample). lzw_compress on the single byte [0] emits one
12-bit code, packs it into 2 bytes and reports compression_ratio 2,
outside [0, 1]. -/
theorem lzw_ratio_exceeds_one :
    ¬ (lzw_compress [0]).compression_ratio ≤ 1 := by
  with_unfolding_all decide

/-- The ratio field of every result record: 0 on empty input, else the
exact quotient of the two size fields; never negative. -/
theorem mkResult_ratio (input : List ℕ) (bl : List ℕ) :
    0 ≤ (mkResult input bl).compression_ratio ∧
      (input = [] → (mkResult input bl).compression_ratio = 0) ∧
      (input ≠ [] → (mkResult input bl).compression_ratio
        = ((mkResult input bl).compressed_size : ℚ) / ((mkResult input bl).original_size : ℚ)) := by
  refine ⟨?_, ?_, ?_⟩
  · rw [mkResult]
    dsimp only
    split
    · exact div_nonneg (Nat.cast_nonneg _) (Nat.cast_nonneg _)
    · exact le_refl 0
  · intro h
    rw [mkResult]
    dsimp only
    rw [if_neg (by simp [h])]
  · intro h
    rw [mkResult]
    dsimp only
    rw [if_pos h]

/-- C10 (amended). For every input and each of the three encoders, the
compression_ratio equals compressed_size / original_size for non-empty
input and 0 for empty input, and is always non-negative; it is not in
general bounded by 1. -/
theorem ratio_formula (input : List ℕ) :
    (0 ≤ (huffman_compress input).compression_ratio ∧
      (input = [] → (huffman_compress input).compression_ratio = 0) ∧
      (input ≠ [] → (huffman_compress input).compression_ratio
        = ((huffman_compress input).compressed_size : ℚ)
          / ((huffman_compress input).original_size : ℚ))) ∧
    (0 ≤ (arithmetic_compress input).compression_ratio ∧
      (input = [] → (arithmetic_compress input).compression_ratio = 0) ∧
      (input ≠ [] → (arithmetic_compress input).compression_ratio
        = ((arithmetic_compress input).compressed_size : ℚ)
          / ((arithmetic_compress input).original_size : ℚ))) ∧
    (0 ≤ (lzw_compress input).compression_ratio ∧
      (input = [] → (lzw_compress input).compression_ratio = 0) ∧
      (input ≠ [] → (lzw_compress input).compression_ratio
        = ((lzw_compress input).compressed_size : ℚ)
          / ((lzw_compress input).original_size : ℚ))) :=
  ⟨mkResult_ratio input _, mkResult_ratio input _, mkResult_ratio input _⟩

/-- Witness for C10 (amended) at the concrete input [65]. -/
theorem ratio_formula_witness :
    ([65] : List ℕ) ≠ [] ∧
      (lzw_compress [65]).compression_ratio
        = ((lzw_compress [65]).compressed_size : ℚ) / ((lzw_compress [65]).original_size : ℚ) :=
  ⟨by decide, (ratio_formula [65]).2.2.2.2 (by decide)⟩

/-! ### Bit packing lemmas -/

theorem specVal_nil : specVal [] = 0 := by simp [specVal]

theorem specVal_cons (d : ℕ) (l : List ℕ) :
    specVal (d :: l) = d * 2 ^ l.length + specVal l := by
  rw [specVal, specVal, List.length_cons, List.range_succ_eq_map]
  simp only [List.map_cons, List.sum_cons, List.map_map]
  congr 1
  apply congrArg
  apply List.map_congr_left
  intro i _
  simp only [Function.comp_apply, List.getElem?_cons_succ]
  congr 1
  congr 1
  omega

theorem int2_acc (l : List ℕ) : ∀ a : ℕ,
    l.foldl (fun a d => 2 * a + d) a = a * 2 ^ l.length + int2 l := by
  induction l with
  | nil => intro a; simp [int2]
  | cons d rest ih =>
      intro a
      simp only [List.foldl_cons, List.length_cons]
      rw [ih (2 * a + d)]
      have hd : int2 (d :: rest) = d * 2 ^ rest.length + int2 rest := by
        rw [int2, List.foldl_cons]
        have : (2 * 0 + d) = d := by omega
        rw [this, ih d]
      rw [hd]
      ring

theorem int2_eq_specVal (l : List ℕ) : int2 l = specVal l := by
  induction l with
  | nil => simp [int2, specVal]
  | cons d rest ih =>
      rw [specVal_cons, ← ih, int2, List.foldl_cons]
      have : (2 * 0 + d) = d := by omega
      rw [this, int2_acc]

theorem padBits_spec (bits : List ℕ) :
    padBits bits = bits ++ List.replicate ((8 - bits.length % 8) % 8) 0 := by
  rw [padBits]
  split
  · rename_i h
    have hm : bits.length % 8 < 8 := Nat.mod_lt _ (by omega)
    have : (8 - bits.length % 8) % 8 = 8 - bits.length % 8 := by omega
    rw [this]
  · rename_i h
    have : (8 - bits.length % 8) % 8 = 0 := by omega
    rw [this]
    simp

theorem padBits_mod (bits : List ℕ) : (padBits bits).length % 8 = 0 := by
  rw [padBits_spec, List.length_append, List.length_replicate]
  have hm : bits.length % 8 < 8 := Nat.mod_lt _ (by omega)
  omega

theorem packLoop_length (fuel : ℕ) : ∀ bits : List ℕ, bits.length ≤ fuel →
    bits.length % 8 = 0 → (packLoop bits fuel).length = bits.length / 8 := by
  induction fuel with
  | zero =>
      intro bits hf hm
      have : bits = [] := List.length_eq_zero.mp (by omega)
      rw [this]
      simp [packLoop]
  | succ fuel ih =>
      intro bits hf hm
      rw [packLoop]
      split
      · rename_i h
        rw [h]
        simp
      · rename_i h
        have hpos : 0 < bits.length := List.length_pos.mpr h
        have h8 : 8 ≤ bits.length := by omega
        rw [List.length_cons, ih (bits.drop 8) (by simp; omega) (by simp; omega)]
        simp only [List.length_drop]
        omega

theorem packLoop_getD (fuel : ℕ) : ∀ (bits : List ℕ) (j : ℕ), bits.length ≤ fuel →
    bits.length % 8 = 0 → j < bits.length / 8 →
    (packLoop bits fuel).getD j 0 = int2 ((bits.drop (8 * j)).take 8) := by
  induction fuel with
  | zero =>
      intro bits j hf hm hj
      have : bits = [] := List.length_eq_zero.mp (by omega)
      rw [this] at hj
      simp at hj
  | succ fuel ih =>
      intro bits j hf hm hj
      rw [packLoop]
      split
      · rename_i h
        rw [h] at hj
        simp at hj
      · rename_i h
        have hpos : 0 < bits.length := List.length_pos.mpr h
        have h8 : 8 ≤ bits.length := by omega
        match j with
        | 0 => simp
        | j+1 =>
            rw [List.getD_cons_succ]
            obtain ⟨k, hk⟩ : ∃ k, bits.length = 8 * k := ⟨bits.length / 8, by omega⟩
            have harg1 : (bits.drop 8).length ≤ fuel := by simp only [List.length_drop]; omega
            have harg2 : (bits.drop 8).length % 8 = 0 := by simp only [List.length_drop]; omega
            have harg3 : j < (bits.drop 8).length / 8 := by
              simp only [List.length_drop]
              have hj2 : j + 1 < k := by
                have : bits.length / 8 = k := by omega
                omega
              have : (bits.length - 8) / 8 = k - 1 := by omega
              omega
            rw [ih (bits.drop 8) j harg1 harg2 harg3]
            rw [List.drop_drop]
            have h88 : 8 + 8 * j = 8 * (j + 1) := by omega
            rw [h88]

theorem packBytes_length (bits : List ℕ) (hm : bits.length % 8 = 0) :
    (packBytes bits).length = bits.length / 8 :=
  packLoop_length bits.length bits (le_refl _) hm

theorem packBytes_getD (bits : List ℕ) (j : ℕ) (hm : bits.length % 8 = 0)
    (hj : j < bits.length / 8) :
    (packBytes bits).getD j 0 = int2 ((bits.drop (8 * j)).take 8) :=
  packLoop_getD bits.length bits j (le_refl _) hm hj

/-- C9. In each of the three encoders the packed output is the bit
sequence padded with zero bits at the end to a multiple of 8 and grouped
into 8-bit bytes, each byte being the standard binary place value of its
group with the first emitted bit most significant. -/
theorem bit_packing_contract (input : List ℕ) :
    ((huffman_compress input).compressed_size = (packBytes (padBits (huffmanBits input))).length ∧
      (arithmetic_compress input).compressed_size = (packBytes (padBits (arithBits input))).length ∧
      (lzw_compress input).compressed_size = (packBytes (padBits (lzwBits input))).length) ∧
    ∀ bits : List ℕ,
      (bits = huffmanBits input ∨ bits = arithBits input ∨ bits = lzwBits input) →
      padBits bits = bits ++ List.replicate ((8 - bits.length % 8) % 8) 0 ∧
      (padBits bits).length % 8 = 0 ∧
      (packBytes (padBits bits)).length * 8 = (padBits bits).length ∧
      ∀ j, j < (padBits bits).length / 8 →
        (packBytes (padBits bits)).getD j 0 = specVal (((padBits bits).drop (8 * j)).take 8) := by
  refine ⟨⟨rfl, rfl, rfl⟩, ?_⟩
  intro bits _
  have hmod := padBits_mod bits
  refine ⟨padBits_spec bits, hmod, ?_, ?_⟩
  · rw [packBytes_length _ hmod]
    omega
  · intro j hj
    rw [packBytes_getD _ j hmod hj, int2_eq_specVal]

/-- Witness for C9 at the concrete input [65, 66], with the Huffman bit
sequence and byte index 0. -/
theorem bit_packing_contract_witness :
    (huffmanBits [65, 66] = huffmanBits [65, 66] ∨ huffmanBits [65, 66] = arithBits [65, 66] ∨
        huffmanBits [65, 66] = lzwBits [65, 66]) ∧
      (0 : ℕ) < (padBits (huffmanBits [65, 66])).length / 8 ∧
      (packBytes (padBits (huffmanBits [65, 66]))).getD 0 0
        = specVal (((padBits (huffmanBits [65, 66])).drop (8 * 0)).take 8) :=
  ⟨Or.inl rfl, by decide,
    ((bit_packing_contract [65, 66]).2 (huffmanBits [65, 66]) (Or.inl rfl)).2.2.2 0 (by decide)⟩

/-! ### LZW: the emitted codes decode back to the input -/

theorem find?_append_some {α : Type} (l1 l2 : List α) (p : α → Bool) (e : α)
    (h : l1.find? p = some e) : (l1 ++ l2).find? p = some e := by
  rw [List.find?_append, h]
  rfl

theorem find?_append_isSome {α : Type} (l1 l2 : List α) (p : α → Bool)
    (h : (l1.find? p).isSome) : ((l1 ++ l2).find? p).isSome := by
  rcases ho : l1.find? p with _ | e
  · rw [ho] at h; simp at h
  · rw [find?_append_some l1 l2 p e ho]; rfl

theorem findValue_of_findKey (d : List (List ℕ × ℕ)) (s : List ℕ) (e : List ℕ × ℕ)
    (hnd : (d.map Prod.snd).Nodup) (h : (d.find? fun x => x.1 == s) = some e) :
    (d.find? fun x => x.2 == e.2) = some e := by
  induction d with
  | nil => simp at h
  | cons e0 rest ih =>
      simp only [List.map_cons, List.nodup_cons] at hnd
      rcases hk : (e0.1 == s) with _ | _
      · rw [List.find?_cons_of_neg _ (by simp [hk])] at h
        have hmem : e ∈ rest := List.mem_of_find?_eq_some h
        have hne : e0.2 ≠ e.2 := by
          intro hcontra
          exact hnd.1 (hcontra ▸ List.mem_map_of_mem Prod.snd hmem)
        rw [List.find?_cons_of_neg _ (by simp [hne])]
        exact ih hnd.2 h
      · rw [List.find?_cons_of_pos _ (by simp_all)] at h
        obtain rfl : e0 = e := by simpa using h
        rw [List.find?_cons_of_pos _ (by simp)]

/-- The loop invariant of lzw_compress, relative to the already processed
input bytes: decoding what has been emitted and appending the pending
match string s reproduces the processed bytes; codes are resolvable and
pairwise distinct; s (when non-empty) and all single bytes are dictionary
keys. -/
def LZWInv (st : LZWState) (processed : List ℕ) : Prop :=
  ((st.encoded.map (codeToStr st.dictionary)).flatten ++ st.s = processed) ∧
  (∀ c ∈ st.encoded, ((st.dictionary.find? fun x => x.2 == c).isSome)) ∧
  ((st.dictionary.map Prod.snd).Nodup) ∧
  (∀ e ∈ st.dictionary, e.2 < st.next_code) ∧
  (st.s = [] ∨ ((st.dictionary.find? fun x => x.1 == st.s).isSome)) ∧
  (∀ b : ℕ, b < 256 → ((st.dictionary.find? fun x => x.1 == [b]).isSome))

theorem lzwInv_init : LZWInv ⟨lzwInit, 256, [], []⟩ [] := by
  refine ⟨by simp, by simp, ?_, ?_, Or.inl rfl, ?_⟩
  · have : lzwInit.map Prod.snd = List.range 256 := by
      rw [lzwInit, List.map_map]
      exact List.map_id _
    rw [this]
    exact List.nodup_range 256
  · intro e he
    rw [lzwInit] at he
    simp only [List.mem_map, List.mem_range] at he
    obtain ⟨i, hi, rfl⟩ := he
    simpa using hi
  · intro b hb
    rw [List.find?_isSome]
    refine ⟨([b], b), ?_, by simp⟩
    rw [lzwInit]
    simp only [List.mem_map, List.mem_range]
    exact ⟨b, hb, rfl⟩

theorem codeToStr_append (d : List (List ℕ × ℕ)) (e2 : List ℕ × ℕ) (c : ℕ)
    (h : ((d.find? fun x => x.2 == c).isSome)) :
    codeToStr (d ++ [e2]) c = codeToStr d c := by
  rcases ho : d.find? fun x => x.2 == c with _ | e
  · rw [ho] at h; simp at h
  · rw [codeToStr, codeToStr, ho, find?_append_some _ _ _ e ho]

theorem lzwStep_inv (st : LZWState) (processed : List ℕ) (byte : ℕ) (hb : byte < 256)
    (hinv : LZWInv st processed) : LZWInv (lzwStep st byte) (processed ++ [byte]) := by
  obtain ⟨hA, hB, hC, hD, hE, hF⟩ := hinv
  rw [lzwStep]
  split
  · rename_i hmem
    refine ⟨?_, hB, hC, hD, Or.inr hmem, hF⟩
    dsimp only
    rw [← hA, List.append_assoc]
  · rename_i hmem
    have hsne : st.s ≠ [] := by
      intro hnil
      exact hmem (by simpa [hnil] using hF byte hb)
    have hkey : ((st.dictionary.find? fun x => x.1 == st.s).isSome) := by
      rcases hE with h | h
      · exact absurd h hsne
      · exact h
    rcases hko : st.dictionary.find? fun x => x.1 == st.s with _ | e
    · rw [hko] at hkey; simp at hkey
    have hekey : e.1 = st.s := by
      have := List.find?_some hko
      simpa using this
    have hlook : dictLookup st.dictionary st.s = e.2 := by
      rw [dictLookup, hko]; rfl
    have hval : (st.dictionary.find? fun x => x.2 == e.2) = some e :=
      findValue_of_findKey st.dictionary st.s e hC hko
    constructor
    · dsimp only
      rw [List.map_append, List.flatten_append]
      have hstable : st.encoded.map (codeToStr (st.dictionary ++ [(st.s ++ [byte], st.next_code)]))
          = st.encoded.map (codeToStr st.dictionary) := by
        apply List.map_congr_left
        intro c hc
        exact codeToStr_append _ _ c (hB c hc)
      rw [hstable, hlook]
      have hdec : codeToStr (st.dictionary ++ [(st.s ++ [byte], st.next_code)]) e.2 = st.s := by
        rw [codeToStr_append _ _ _ (by rw [hval]; rfl), codeToStr, hval]
        simpa using hekey
      simp only [List.map_cons, List.map_nil, List.flatten_cons, List.flatten_nil,
        List.append_nil]
      rw [hdec]
      rw [hA]
    refine ⟨?_, ?_, ?_, ?_, ?_⟩
    · intro c hc
      dsimp only at hc ⊢
      rw [List.mem_append] at hc
      rcases hc with hc | hc
      · exact find?_append_isSome _ _ _ (hB c hc)
      · simp only [List.mem_singleton] at hc
        subst hc
        rw [hlook] at *
        exact find?_append_isSome _ _ _ (by rw [hval]; rfl)
    · dsimp only
      rw [List.map_append, List.nodup_append]
      refine ⟨hC, by simp, ?_⟩
      intro v hv
      simp only [List.map_cons, List.map_nil, List.mem_singleton]
      intro hv2
      rw [List.mem_map] at hv
      obtain ⟨e3, he3, rfl⟩ := hv
      exact absurd hv2 (Nat.ne_of_lt (hD e3 he3))
    · intro e3 he3
      dsimp only at he3 ⊢
      rw [List.mem_append] at he3
      rcases he3 with he3 | he3
      · exact Nat.lt_succ_of_lt (hD e3 he3)
      · simp only [List.mem_singleton] at he3
        subst he3
        exact Nat.lt_succ_self _
    · right
      dsimp only
      exact find?_append_isSome _ _ _ (hF byte hb)
    · intro b2 hb2
      dsimp only
      exact find?_append_isSome _ _ _ (hF b2 hb2)

theorem lzwFold_inv (l : List ℕ) : ∀ (st : LZWState) (processed : List ℕ),
    LZWInv st processed → (∀ b ∈ l, b < 256) →
    LZWInv (l.foldl lzwStep st) (processed ++ l) := by
  induction l with
  | nil => intro st p h _; simpa using h
  | cons b rest ih =>
      intro st p h hb
      simp only [List.foldl_cons]
      have h1 := lzwStep_inv st p b (hb b (List.mem_cons_self b rest)) h
      have h2 := ih (lzwStep st b) (p ++ [b]) h1 (fun x hx => hb x (List.mem_cons_of_mem b hx))
      simpa using h2

theorem lzwRun_inv (input : List ℕ) (hb : ∀ b ∈ input, b < 256) :
    LZWInv (lzwRun input) input := by
  have := lzwFold_inv input ⟨lzwInit, 256, [], []⟩ [] lzwInv_init hb
  simpa [lzwRun] using this

/-- C3. For every input byte sequence, mapping each code emitted by
lzw_compress back to the dictionary string it was assigned to and
concatenating those strings in emission order reproduces the input. -/
theorem lzw_decode_consistent (input : List ℕ) (hb : ∀ b ∈ input, b < 256) :
    ((lzwEncoded input).map (codeToStr (lzwRun input).dictionary)).flatten = input := by
  obtain ⟨hA, hB, hC, hD, hE, hF⟩ := lzwRun_inv input hb
  rw [lzwEncoded]
  split
  · rename_i hsne
    have hkey : (((lzwRun input).dictionary.find? fun x => x.1 == (lzwRun input).s).isSome) := by
      rcases hE with h | h
      · exact absurd h hsne
      · exact h
    rcases hko : (lzwRun input).dictionary.find? fun x => x.1 == (lzwRun input).s with _ | e
    · rw [hko] at hkey; simp at hkey
    have hekey : e.1 = (lzwRun input).s := by
      have := List.find?_some hko
      simpa using this
    have hlook : dictLookup (lzwRun input).dictionary (lzwRun input).s = e.2 := by
      rw [dictLookup, hko]; rfl
    have hval : ((lzwRun input).dictionary.find? fun x => x.2 == e.2) = some e :=
      findValue_of_findKey _ _ e hC hko
    have hdec : codeToStr (lzwRun input).dictionary e.2 = (lzwRun input).s := by
      rw [codeToStr, hval]
      simpa using hekey
    rw [List.map_append, List.flatten_append, hlook]
    simp only [List.map_cons, List.map_nil, List.flatten_cons, List.flatten_nil,
      List.append_nil]
    rw [hdec, hA]
  · rename_i hs
    have hsnil : (lzwRun input).s = [] := by
      by_contra hcon
      exact hs hcon
    rw [hsnil] at hA
    simpa using hA

/-- Witness for C3 at the concrete input [65, 66, 65, 66, 65]. -/
theorem lzw_decode_consistent_witness :
    (∀ b ∈ ([65, 66, 65, 66, 65] : List ℕ), b < 256) ∧
      ((lzwEncoded [65, 66, 65, 66, 65]).map
          (codeToStr (lzwRun [65, 66, 65, 66, 65]).dictionary)).flatten
        = [65, 66, 65, 66, 65] :=
  ⟨by decide, lzw_decode_consistent [65, 66, 65, 66, 65] (by decide)⟩

/-- C4 (mechanism). format(code, '012b') is a minimum width, not a fixed
width: codes up to 4095 occupy exactly 12 bits, but code 4096 — assigned
once the dictionary has grown past index 4095 and emitted whenever its
string recurs — occupies 13 bits in the packed stream. -/
theorem lzw_code_field_width :
    (format012b 4095).length = 12 ∧ (format012b 4096).length = 13 := by
  refine ⟨?_, ?_⟩ <;> decide

/-! ### The cumulative interval chain of the arithmetic encoder -/

theorem cumGo_chain (input : List ℕ) : ∀ (keys : List ℕ) (cur : ℚ),
    chainFromB cur (cumGo input keys cur) = true := by
  intro keys
  induction keys with
  | nil => intro cur; rfl
  | cons b rest ih =>
      intro cur
      rw [cumGo, chainFromB]
      simp only [decide_eq_true_eq, Bool.and_eq_true]
      exact ⟨by simp, ih _⟩

theorem cumGo_width (input : List ℕ) : ∀ (keys : List ℕ) (cur : ℚ),
    ∀ e ∈ cumGo input keys cur,
      e.2.2 = decAdd e.2.1 (decDiv (input.count e.1 : ℚ) (arithTotal input : ℚ)) := by
  intro keys
  induction keys with
  | nil => intro cur e he; simp [cumGo] at he
  | cons b rest ih =>
      intro cur e he
      rw [cumGo] at he
      rcases List.mem_cons.mp he with he | he
      · subst he; rfl
      · exact ih _ e he

/-- C2. arithmetic_compress builds its interval table by iterating the
present byte values in ascending order with a running cursor, and the
narrowing loop folds the simultaneous update high = low + width * hi,
low = low + width * lo over the input, both reading the pre-step low. -/
theorem arith_model_faithful (input : List ℕ) :
    List.Sorted (· ≤ ·) (sortedKeys input) ∧
    (∀ b : ℕ, b ∈ sortedKeys input ↔ b ∈ input) ∧
    chainFromB 0 (cum_prob input) = true ∧
    (∀ e ∈ cum_prob input,
      e.2.2 = decAdd e.2.1 (decDiv (input.count e.1 : ℚ) (arithTotal input : ℚ))) ∧
    arithFinal input = input.foldl (fun lh b =>
      (decAdd lh.1 (decMul (decSub lh.2 lh.1) (cumLookup (cum_prob input) b).1),
        decAdd lh.1 (decMul (decSub lh.2 lh.1) (cumLookup (cum_prob input) b).2))) (0, 1) := by
  refine ⟨List.sorted_insertionSort _ _, ?_, cumGo_chain input _ 0, cumGo_width input _ 0, rfl⟩
  intro b
  rw [sortedKeys, (List.perm_insertionSort _ _).mem_iff, firstKeys_mem]

/-- Witness for C2 at the concrete input [1, 0]. -/
theorem arith_model_faithful_witness :
    (0, (0 : ℚ), Rat.divInt 1 2) ∈ cum_prob [1, 0] ∧
      ((0, (0 : ℚ), Rat.divInt 1 2) : ℕ × ℚ × ℚ).2.2
        = decAdd ((0, (0 : ℚ), Rat.divInt 1 2) : ℕ × ℚ × ℚ).2.1
            (decDiv (List.count 0 [1, 0] : ℚ) (arithTotal [1, 0] : ℚ)) :=
  ⟨by with_unfolding_all decide,
    (arith_model_faithful [1, 0]).2.2.2.1 (0, (0 : ℚ), Rat.divInt 1 2)
      (by with_unfolding_all decide)⟩

/-- C7 (mechanism at a concrete state). Once the interval width has gone
below the resolution of the 1000-digit context around a low value of
magnitude one half, one narrowing step of arithmetic_compress collapses
low = high: here the state (1/2, 1/2 + 10 ^ (-1019)) with a symbol whose
interval is [0, 1/2) maps to (1/2, 1/2). -/
theorem arith_interval_collapse_step :
    Rat.divInt 1 2 < Rat.divInt 1 2 + tpowZ (-1019) ∧
      arithStep [(0, 0, Rat.divInt 1 2)] (Rat.divInt 1 2, Rat.divInt 1 2 + tpowZ (-1019)) 0
        = (Rat.divInt 1 2, Rat.divInt 1 2) := by
  refine ⟨?_, ?_⟩ <;> with_unfolding_all decide

/-- C8 (counterexample). On input [0, 1, 2] the interval stored for byte 0
has width ctxRound (1/3), the 1000-digit rounding of 1/3, which is not
exactly count/total = 1/3. -/
theorem cum_width_not_exact :
    (cumLookup (cum_prob [0, 1, 2]) 0).2 - (cumLookup (cum_prob [0, 1, 2]) 0).1
      ≠ (1 : ℚ) / 3 := by
  with_unfolding_all decide

/-! ### Facts about the 1000-digit rounding ctxRound: it is monotone,
idempotent and non-negative on non-negative arguments. These support the
interval-table structure theorem. -/

theorem iFloor_eq_floor (q : ℚ) (h : 0 ≤ q) : (iFloor q : ℤ) = ⌊q⌋ := by
  rw [iFloor, Rat.floor_def, Int.natCast_div]
  congr 1
  exact Int.toNat_of_nonneg (Rat.num_nonneg.mpr h)

theorem iFloor_le (q : ℚ) (h : 0 ≤ q) : (iFloor q : ℚ) ≤ q := by
  have h1 : ((iFloor q : ℤ) : ℚ) ≤ q := by
    rw [iFloor_eq_floor q h]
    exact Int.floor_le q
  exact_mod_cast h1

theorem lt_iFloor_add_one (q : ℚ) (h : 0 ≤ q) : q < (iFloor q : ℚ) + 1 := by
  have h1 : q < ((iFloor q : ℤ) : ℚ) + 1 := by
    rw [iFloor_eq_floor q h]
    exact Int.lt_floor_add_one q
  exact_mod_cast h1

theorem iFloor_mono (x y : ℚ) (hx : 0 ≤ x) (hxy : x ≤ y) : iFloor x ≤ iFloor y := by
  by_contra hcon
  push_neg at hcon
  have h1 : (iFloor y : ℚ) + 1 ≤ (iFloor x : ℚ) := by
    have : (iFloor y : ℕ) + 1 ≤ iFloor x := hcon
    exact_mod_cast this
  have h2 := iFloor_le x hx
  have h3 := lt_iFloor_add_one y (le_trans hx hxy)
  linarith

theorem iFloor_natCast (n : ℕ) : iFloor (n : ℚ) = n := by
  have h1 : (iFloor (n : ℚ) : ℤ) = ⌊(n : ℚ)⌋ := iFloor_eq_floor _ (Nat.cast_nonneg n)
  rw [Int.floor_natCast] at h1
  exact_mod_cast h1

theorem rhe_ge_iFloor (q : ℚ) : iFloor q ≤ rhe q := by
  rw [rhe]
  split
  · exact le_refl _
  · split
    · omega
    · split <;> omega

theorem rhe_le_iFloor_add_one (q : ℚ) : rhe q ≤ iFloor q + 1 := by
  rw [rhe]
  split
  · omega
  · split
    · omega
    · split <;> omega

theorem rhe_natCast (n : ℕ) : rhe (n : ℚ) = n := by
  rw [rhe, iFloor_natCast]
  rw [if_pos (by norm_num : (n : ℚ) - (n : ℚ) < 1/2)]

theorem rhe_le_of_lt_natCast (q : ℚ) (m : ℕ) (h0 : 0 ≤ q) (h : q < (m : ℚ)) : rhe q ≤ m := by
  have h1 : iFloor q < m := by
    by_contra hcon
    push_neg at hcon
    have : (m : ℚ) ≤ (iFloor q : ℚ) := by exact_mod_cast hcon
    have := iFloor_le q h0
    linarith
  have := rhe_le_iFloor_add_one q
  omega

theorem natCast_le_rhe (q : ℚ) (m : ℕ) (h0 : 0 ≤ q) (h : (m : ℚ) ≤ q) : m ≤ rhe q := by
  have h1 : m ≤ iFloor q := by
    by_contra hcon
    push_neg at hcon
    have h2 : (iFloor q : ℚ) + 1 ≤ (m : ℚ) := by exact_mod_cast hcon
    have := lt_iFloor_add_one q h0
    linarith
  have := rhe_ge_iFloor q
  omega

theorem rhe_mono (x y : ℚ) (hx : 0 ≤ x) (hxy : x ≤ y) : rhe x ≤ rhe y := by
  have hfm := iFloor_mono x y hx hxy
  rcases Nat.lt_or_ge (iFloor x) (iFloor y) with hlt | hge
  · have h1 := rhe_le_iFloor_add_one x
    have h2 := rhe_ge_iFloor y
    omega
  · have hfe : iFloor x = iFloor y := by omega
    rw [rhe, rhe]
    rw [← hfe]
    have hr : x - (iFloor x : ℚ) ≤ y - (iFloor x : ℚ) := by linarith
    split_ifs with h1 h2 h3 h4 h5 h6 h7 h8 h9 h10 h11 <;> try omega
    all_goals linarith

theorem digitsLen_spec : ∀ (fuel n : ℕ), 1 ≤ n → n < 10 ^ fuel →
    10 ^ digitsLen n fuel ≤ n ∧ n < 10 ^ (digitsLen n fuel + 1) := by
  intro fuel
  induction fuel with
  | zero =>
      intro n h1 h2
      simp only [pow_zero] at h2
      omega
  | succ fuel ih =>
      intro n h1 h2
      rw [digitsLen]
      split
      · rename_i hlt
        simpa using ⟨h1, hlt⟩
      · rename_i hge
        push_neg at hge
        have hd1 : 1 ≤ n / 10 := by omega
        have hdm := Nat.div_add_mod n 10
        have hd2 : n / 10 < 10 ^ fuel := by
          have hmul : 10 ^ (fuel + 1) = 10 ^ fuel * 10 := by ring
          rw [hmul] at h2
          omega
        obtain ⟨ihl, ihr⟩ := ih (n / 10) hd1 hd2
        constructor
        · have : 10 ^ (digitsLen (n / 10) fuel + 1) = 10 ^ digitsLen (n / 10) fuel * 10 := by
            ring
          rw [this]
          omega
        · have : 10 ^ (digitsLen (n / 10) fuel + 1 + 1)
              = 10 ^ (digitsLen (n / 10) fuel + 1) * 10 := by ring
          rw [this]
          omega

theorem findE10A_eq_X : ∀ (fuel n d k : ℕ),
    findE10A n d k fuel = k + findE10X n d fuel := by
  intro fuel
  induction fuel with
  | zero => intro n d k; rfl
  | succ fuel ih =>
      intro n d k
      rw [findE10A, findE10X]
      split
      · simp
      · rw [ih]
        omega

theorem findE10X_spec : ∀ (fuel n d : ℕ), 1 ≤ n → 1 ≤ d → d ≤ n * 10 ^ fuel →
    (d ≤ n * 10 ^ findE10X n d fuel ∧ ∀ j < findE10X n d fuel, n * 10 ^ j < d) := by
  intro fuel
  induction fuel with
  | zero =>
      intro n d h1 h2 h3
      rw [findE10X]
      simpa using h3
  | succ fuel ih =>
      intro n d h1 h2 h3
      rw [findE10X]
      split
      · rename_i hle
        constructor
        · simpa using hle
        · intro j hj
          omega
      · rename_i hgt
        push_neg at hgt
        have h3b : d ≤ n * 10 * 10 ^ fuel := by
          have : n * 10 ^ (fuel + 1) = n * 10 * 10 ^ fuel := by ring
          rw [this] at h3
          exact h3
        obtain ⟨ihl, ihr⟩ := ih (n * 10) d (by omega) h2 h3b
        constructor
        · have : n * 10 ^ (findE10X (n * 10) d fuel + 1)
              = n * 10 * 10 ^ findE10X (n * 10) d fuel := by ring
          rw [this]
          exact ihl
        · intro j hj
          match j with
          | 0 => simpa using hgt
          | j+1 =>
              have : n * 10 ^ (j + 1) = n * 10 * 10 ^ j := by ring
              rw [this]
              exact ihr j (by omega)

theorem tpowZ_eq (k : ℤ) : tpowZ k = (10 : ℚ) ^ k := by
  rw [tpowZ]
  split
  · rename_i h
    rw [← Int.toNat_of_nonneg h, zpow_natCast]
    push_cast
    rw [Int.toNat_of_nonneg h]
  · rename_i h
    push_neg at h
    rw [Rat.divInt_eq_div, show k = -(((-k).toNat : ℕ) : ℤ) by omega, zpow_neg, zpow_natCast]
    rw [eq_comm, inv_eq_one_div]
    congr 1
    push_cast
    rw [neg_neg, Int.toNat_natCast]

theorem tpowZ_pos (k : ℤ) : 0 < tpowZ k := by
  rw [tpowZ_eq]
  exact zpow_pos (by norm_num) k

theorem tpowZ_mono (k m : ℤ) (h : k ≤ m) : tpowZ k ≤ tpowZ m := by
  rw [tpowZ_eq, tpowZ_eq]
  exact zpow_le_zpow_right₀ (by norm_num) h

theorem tpowZ_natCast (d : ℕ) : tpowZ (d : ℤ) = ((10 ^ d : ℕ) : ℚ) := by
  rw [tpowZ, if_pos (Int.natCast_nonneg d)]
  norm_num

theorem tpowZ_add (a b : ℤ) : tpowZ (a + b) = tpowZ a * tpowZ b := by
  rw [tpowZ_eq, tpowZ_eq, tpowZ_eq]
  exact zpow_add₀ (by norm_num) a b

theorem adjE_spec (q : ℚ) (hq : 0 < q) : tpowZ (adjE q) ≤ q ∧ q < tpowZ (adjE q + 1) := by
  rw [adjE]
  split
  · rename_i h1
    have hq0 : 0 ≤ q := le_of_lt hq
    have hfl := iFloor_le q hq0
    have hfu := lt_iFloor_add_one q hq0
    have hn1 : 1 ≤ iFloor q := by
      by_contra hcon
      push_neg at hcon
      have h0 : iFloor q = 0 := by omega
      rw [h0] at hfu
      norm_num at hfu
      linarith
    obtain ⟨hdl, hdu⟩ := digitsLen_spec (iFloor q) (iFloor q) hn1
      (Nat.lt_pow_self (by norm_num) (iFloor q))
    constructor
    · rw [tpowZ_natCast]
      have h2 : ((10 ^ digitsLen (iFloor q) (iFloor q) : ℕ) : ℚ) ≤ ((iFloor q : ℕ) : ℚ) := by
        exact_mod_cast hdl
      linarith
    · rw [show ((digitsLen (iFloor q) (iFloor q) : ℤ) + 1)
          = ((digitsLen (iFloor q) (iFloor q) + 1 : ℕ) : ℤ) by push_cast; ring]
      rw [tpowZ_natCast]
      have h3 : ((iFloor q : ℚ) + 1)
          ≤ ((10 ^ (digitsLen (iFloor q) (iFloor q) + 1) : ℕ) : ℚ) := by
        exact_mod_cast hdu
      linarith
  · rename_i h1
    push_neg at h1
    have hq0 : 0 ≤ q := le_of_lt hq
    set nn := q.num.toNat with hnn
    have hnum : ((nn : ℕ) : ℚ) = (q.num : ℚ) := by
      have h2 : ((nn : ℕ) : ℤ) = q.num := Int.toNat_of_nonneg (Rat.num_nonneg.mpr hq0)
      exact_mod_cast h2
    have hn1 : 1 ≤ nn := by
      have h2 : 0 < q.num := Rat.num_pos.mpr hq
      omega
    have hd1 : 1 ≤ q.den := q.den_pos
    have hqval : q = (nn : ℚ) / (q.den : ℚ) := by
      rw [hnum, Rat.num_div_den]
    have hdenpos : (0 : ℚ) < (q.den : ℚ) := by exact_mod_cast hd1
    have hfuel : q.den ≤ nn * 10 ^ q.den := by
      have h10 := Nat.lt_pow_self (show 1 < 10 by norm_num) q.den
      have h11 : 10 ^ q.den ≤ nn * 10 ^ q.den := Nat.le_mul_of_pos_left _ (by omega)
      omega
    have hfind : findE10 nn q.den q.den = findE10X nn q.den q.den := by
      rw [findE10, findE10A_eq_X]
      omega
    obtain ⟨hsl, hsm⟩ := findE10X_spec q.den nn q.den hn1 (by omega) hfuel
    set k := findE10X nn q.den q.den with hk
    have hk1 : 1 ≤ k := by
      by_contra hcon
      push_neg at hcon
      have hk0 : k = 0 := by omega
      rw [hk0] at hsl
      simp only [pow_zero, Nat.mul_one] at hsl
      have h2 : (1 : ℚ) ≤ q := by
        rw [hqval, le_div_iff₀ hdenpos, one_mul]
        exact_mod_cast hsl
      linarith
    have hpowpos : ∀ m : ℕ, (0 : ℚ) < ((10 ^ m : ℕ) : ℚ) := by
      intro m
      have h2 : 0 < (10 : ℕ) ^ m := Nat.pos_pow_of_pos m (by norm_num)
      exact_mod_cast h2
    constructor
    · rw [hfind]
      rw [show (-(k : ℤ)) = (0 : ℤ) - (k : ℤ) by ring]
      have heq : tpowZ ((0 : ℤ) - (k : ℤ)) = 1 / tpowZ (k : ℤ) := by
        rw [eq_div_iff (ne_of_gt (tpowZ_pos _)), ← tpowZ_add]
        simp [tpowZ]
      rw [heq, tpowZ_natCast]
      rw [div_le_iff₀ (hpowpos k), hqval, div_mul_eq_mul_div, le_div_iff₀ hdenpos, one_mul]
      have h2 : ((q.den : ℕ) : ℚ) ≤ ((nn * 10 ^ k : ℕ) : ℚ) := by exact_mod_cast hsl
      push_cast at h2 ⊢
      linarith
    · rw [hfind]
      have hmin := hsm (k - 1) (by omega)
      rw [show (-(k : ℤ) + 1) = (0 : ℤ) - ((k - 1 : ℕ) : ℤ) by push_cast; omega]
      have heq : tpowZ ((0 : ℤ) - ((k - 1 : ℕ) : ℤ)) = 1 / tpowZ ((k - 1 : ℕ) : ℤ) := by
        rw [eq_div_iff (ne_of_gt (tpowZ_pos _)), ← tpowZ_add]
        simp [tpowZ]
      rw [heq, tpowZ_natCast]
      rw [lt_div_iff₀ (hpowpos (k - 1)), hqval, div_mul_eq_mul_div, div_lt_iff₀ hdenpos, one_mul]
      have h2 : ((nn * 10 ^ (k - 1) : ℕ) : ℚ) < ((q.den : ℕ) : ℚ) := by exact_mod_cast hmin
      push_cast at h2 ⊢
      linarith

theorem adjE_unique (q : ℚ) (hq : 0 < q) (e : ℤ) (hl : tpowZ e ≤ q) (hu : q < tpowZ (e + 1)) :
    adjE q = e := by
  obtain ⟨al, au⟩ := adjE_spec q hq
  by_contra hne
  rcases lt_or_gt_of_ne hne with h | h
  · have := tpowZ_mono (adjE q + 1) e (by omega)
    linarith
  · have := tpowZ_mono (e + 1) (adjE q) (by omega)
    linarith

theorem adjE_mono (x y : ℚ) (hx : 0 < x) (hxy : x ≤ y) : adjE x ≤ adjE y := by
  by_contra hcon
  push_neg at hcon
  obtain ⟨xl, xu⟩ := adjE_spec x hx
  obtain ⟨yl, yu⟩ := adjE_spec y (lt_of_lt_of_le hx hxy)
  have := tpowZ_mono (adjE y + 1) (adjE x) (by omega)
  linarith

theorem tpowZ_zero : tpowZ 0 = 1 := by
  rw [tpowZ]
  norm_num

theorem tpowZ_one : tpowZ 1 = 10 := by
  rw [show (1 : ℤ) = ((1 : ℕ) : ℤ) by norm_num, tpowZ_natCast]
  norm_num

theorem posRound_z_bounds (q : ℚ) (hq : 0 < q) :
    tpowZ 999 ≤ q * tpowZ (999 - adjE q) ∧ q * tpowZ (999 - adjE q) < tpowZ 1000 := by
  obtain ⟨al, au⟩ := adjE_spec q hq
  have hp := tpowZ_pos (999 - adjE q)
  constructor
  · have h1 : tpowZ (adjE q) * tpowZ (999 - adjE q) ≤ q * tpowZ (999 - adjE q) :=
      mul_le_mul_of_nonneg_right al (le_of_lt hp)
    rw [← tpowZ_add] at h1
    rw [show adjE q + (999 - adjE q) = (999 : ℤ) by ring] at h1
    exact h1
  · have h1 : q * tpowZ (999 - adjE q) < tpowZ (adjE q + 1) * tpowZ (999 - adjE q) :=
      mul_lt_mul_of_pos_right au hp
    rw [← tpowZ_add] at h1
    rw [show adjE q + 1 + (999 - adjE q) = (1000 : ℤ) by ring] at h1
    exact h1

theorem tpowZ_999 : tpowZ 999 = ((10 ^ 999 : ℕ) : ℚ) := by
  rw [show (999 : ℤ) = ((999 : ℕ) : ℤ) by norm_num, tpowZ_natCast]

theorem tpowZ_1000 : tpowZ 1000 = ((10 ^ 1000 : ℕ) : ℚ) := by
  rw [show (1000 : ℤ) = ((1000 : ℕ) : ℤ) by norm_num, tpowZ_natCast]

theorem posRound_rhe_bounds (q : ℚ) (hq : 0 < q) :
    10 ^ 999 ≤ rhe (q * tpowZ (999 - adjE q)) ∧ rhe (q * tpowZ (999 - adjE q)) ≤ 10 ^ 1000 := by
  obtain ⟨zl, zu⟩ := posRound_z_bounds q hq
  have hz0 : 0 ≤ q * tpowZ (999 - adjE q) := by
    have := tpowZ_pos (999 - adjE q)
    positivity
  constructor
  · apply natCast_le_rhe _ _ hz0
    rw [← tpowZ_999]
    exact zl
  · apply rhe_le_of_lt_natCast _ _ hz0
    rw [← tpowZ_1000]
    exact zu

theorem posRound_nonneg (q : ℚ) : 0 ≤ posRound q := by
  rw [posRound]
  exact mul_nonneg (Nat.cast_nonneg _) (le_of_lt (tpowZ_pos _))

theorem posRound_lb (q : ℚ) (hq : 0 < q) : tpowZ (adjE q) ≤ posRound q := by
  obtain ⟨rl, _⟩ := posRound_rhe_bounds q hq
  rw [posRound]
  have h1 : tpowZ 999 * tpowZ (adjE q - 999) ≤ (rhe (q * tpowZ (999 - adjE q)) : ℚ)
      * tpowZ (adjE q - 999) := by
    apply mul_le_mul_of_nonneg_right _ (le_of_lt (tpowZ_pos _))
    rw [tpowZ_999]
    exact_mod_cast rl
  rw [← tpowZ_add] at h1
  rw [show (999 : ℤ) + (adjE q - 999) = adjE q by ring] at h1
  exact h1

theorem posRound_ub (q : ℚ) (hq : 0 < q) : posRound q ≤ tpowZ (adjE q + 1) := by
  obtain ⟨_, ru⟩ := posRound_rhe_bounds q hq
  rw [posRound]
  have h1 : (rhe (q * tpowZ (999 - adjE q)) : ℚ) * tpowZ (adjE q - 999)
      ≤ tpowZ 1000 * tpowZ (adjE q - 999) := by
    apply mul_le_mul_of_nonneg_right _ (le_of_lt (tpowZ_pos _))
    rw [tpowZ_1000]
    exact_mod_cast ru
  rw [← tpowZ_add] at h1
  rw [show (1000 : ℤ) + (adjE q - 999) = adjE q + 1 by ring] at h1
  exact h1

theorem posRound_pos (q : ℚ) (hq : 0 < q) : 0 < posRound q :=
  lt_of_lt_of_le (tpowZ_pos (adjE q)) (posRound_lb q hq)

theorem posRound_mono (x y : ℚ) (hx : 0 < x) (hxy : x ≤ y) : posRound x ≤ posRound y := by
  have hy : 0 < y := lt_of_lt_of_le hx hxy
  have he := adjE_mono x y hx hxy
  rcases eq_or_lt_of_le he with heq | hlt
  · rw [posRound, posRound, ← heq]
    apply mul_le_mul_of_nonneg_right _ (le_of_lt (tpowZ_pos _))
    have hz0 : 0 ≤ x * tpowZ (999 - adjE x) := by
      have := tpowZ_pos (999 - adjE x)
      positivity
    have hm : x * tpowZ (999 - adjE x) ≤ y * tpowZ (999 - adjE x) :=
      mul_le_mul_of_nonneg_right hxy (le_of_lt (tpowZ_pos _))
    exact_mod_cast rhe_mono _ _ hz0 hm
  · calc posRound x ≤ tpowZ (adjE x + 1) := posRound_ub x hx
      _ ≤ tpowZ (adjE y) := tpowZ_mono _ _ (by omega)
      _ ≤ posRound y := posRound_lb y hy

theorem posRound_idem (q : ℚ) (hq : 0 < q) : posRound (posRound q) = posRound q := by
  have hz0 : 0 ≤ q * tpowZ (999 - adjE q) := by
    have := tpowZ_pos (999 - adjE q)
    positivity
  obtain ⟨rl, ru⟩ := posRound_rhe_bounds q hq
  set m := rhe (q * tpowZ (999 - adjE q)) with hm
  set e := adjE q with he
  have hv : posRound q = (m : ℚ) * tpowZ (e - 999) := rfl
  rcases eq_or_lt_of_le ru with hcarry | hlt
  · have hveq : posRound q = tpowZ (e + 1) := by
      rw [hv, hcarry, ← tpowZ_1000, ← tpowZ_add]
      congr 1
      ring
    have hadj : adjE (posRound q) = e + 1 := by
      apply adjE_unique _ (by rw [hveq]; exact tpowZ_pos _) (e + 1)
      · rw [hveq]
      · rw [hveq]
        have h10 : tpowZ (e + 1) * 1 < tpowZ (e + 1) * 10 := by
          have := tpowZ_pos (e + 1)
          linarith
        calc tpowZ (e + 1) = tpowZ (e + 1) * 1 := by ring
          _ < tpowZ (e + 1) * 10 := h10
          _ = tpowZ (e + 1) * tpowZ 1 := by rw [tpowZ_one]
          _ = tpowZ (e + 1 + 1) := by rw [← tpowZ_add]
    rw [posRound, hadj, hveq]
    have hz : tpowZ (e + 1) * tpowZ (999 - (e + 1)) = tpowZ 999 := by
      rw [← tpowZ_add]
      congr 1
      ring
    rw [hz, tpowZ_999, rhe_natCast, ← tpowZ_999, ← tpowZ_add]
    congr 1
    ring
  · have hvl : tpowZ e ≤ posRound q := posRound_lb q hq
    have hvu : posRound q < tpowZ (e + 1) := by
      rw [hv]
      have h1 : (m : ℚ) * tpowZ (e - 999) < tpowZ 1000 * tpowZ (e - 999) := by
        apply mul_lt_mul_of_pos_right _ (tpowZ_pos _)
        rw [tpowZ_1000]
        exact_mod_cast hlt
      rw [← tpowZ_add] at h1
      rw [show (1000 : ℤ) + (e - 999) = e + 1 by ring] at h1
      exact h1
    have hadj : adjE (posRound q) = e :=
      adjE_unique _ (posRound_pos q hq) e hvl hvu
    rw [posRound, hadj, hv]
    have hz : (m : ℚ) * tpowZ (e - 999) * tpowZ (999 - e) = (m : ℚ) := by
      rw [mul_assoc, ← tpowZ_add, show (e - 999) + (999 - e) = (0 : ℤ) by ring, tpowZ_zero,
        mul_one]
    rw [hz, rhe_natCast]

theorem ctxRound_zero : ctxRound 0 = 0 := by
  rw [ctxRound, if_pos rfl]

theorem ctxRound_eq_posRound (q : ℚ) (hq : 0 < q) : ctxRound q = posRound q := by
  rw [ctxRound, if_neg (ne_of_gt hq), if_neg (not_lt.mpr (le_of_lt hq))]

theorem ctxRound_nonneg (q : ℚ) (h : 0 ≤ q) : 0 ≤ ctxRound q := by
  rcases eq_or_lt_of_le h with h0 | h0
  · rw [← h0, ctxRound_zero]
  · rw [ctxRound_eq_posRound q h0]
    exact posRound_nonneg q

theorem ctxRound_mono (x y : ℚ) (hx : 0 ≤ x) (hxy : x ≤ y) : ctxRound x ≤ ctxRound y := by
  rcases eq_or_lt_of_le hx with h0 | h0
  · rw [← h0, ctxRound_zero]
    exact ctxRound_nonneg y (le_trans hx hxy)
  · rw [ctxRound_eq_posRound x h0, ctxRound_eq_posRound y (lt_of_lt_of_le h0 hxy)]
    exact posRound_mono x y h0 hxy

theorem ctxRound_idem (q : ℚ) (h : 0 ≤ q) : ctxRound (ctxRound q) = ctxRound q := by
  rcases eq_or_lt_of_le h with h0 | h0
  · rw [← h0, ctxRound_zero, ctxRound_zero]
  · rw [ctxRound_eq_posRound q h0,
      ctxRound_eq_posRound (posRound q) (posRound_pos q h0)]
    exact posRound_idem q h0

theorem decDiv_nonneg (a b : ℚ) (ha : 0 ≤ a) (hb : 0 ≤ b) : 0 ≤ decDiv a b :=
  ctxRound_nonneg _ (div_nonneg ha hb)

theorem decAdd_ge_left (cur p : ℚ) (hc : 0 ≤ cur) (hp : 0 ≤ p)
    (hidem : ctxRound cur = cur) : cur ≤ decAdd cur p := by
  rw [decAdd]
  calc cur = ctxRound cur := hidem.symm
    _ ≤ ctxRound (cur + p) := ctxRound_mono _ _ hc (by linarith)

/-- Entry bounds along the cumulative loop: lower bounds weakly increase
and each interval is non-degenerate-ordered (lower ≤ upper). -/
theorem cumGo_bounds (input : List ℕ) : ∀ (keys : List ℕ) (cur : ℚ),
    0 ≤ cur → ctxRound cur = cur →
    ∀ e ∈ cumGo input keys cur, cur ≤ e.2.1 ∧ 0 ≤ e.2.1 ∧ e.2.1 ≤ e.2.2 := by
  intro keys
  induction keys with
  | nil => intro cur _ _ e he; simp [cumGo] at he
  | cons b rest ih =>
      intro cur hc hidem e he
      have hp : 0 ≤ decDiv (input.count b : ℚ) (arithTotal input : ℚ) :=
        decDiv_nonneg _ _ (Nat.cast_nonneg _) (Nat.cast_nonneg _)
      have hstep : cur ≤ decAdd cur (decDiv (input.count b : ℚ) (arithTotal input : ℚ)) :=
        decAdd_ge_left cur _ hc hp hidem
      have hnext0 : 0 ≤ decAdd cur (decDiv (input.count b : ℚ) (arithTotal input : ℚ)) :=
        le_trans hc hstep
      have hnextidem : ctxRound (decAdd cur (decDiv (input.count b : ℚ)
          (arithTotal input : ℚ))) = decAdd cur (decDiv (input.count b : ℚ)
          (arithTotal input : ℚ)) := by
        rw [decAdd]
        exact ctxRound_idem _ (by linarith [hstep, hc])
      rw [cumGo] at he
      rcases List.mem_cons.mp he with he | he
      · subst he
        exact ⟨le_refl _, hc, hstep⟩
      · obtain ⟨h1, h2, h3⟩ := ih _ hnext0 hnextidem e he
        exact ⟨le_trans hstep h1, h2, h3⟩

/-- Along a chain starting at c with ordered endpoints, every entry has
lower bound at least c. -/
theorem chain_lb : ∀ (t : List (ℕ × ℚ × ℚ)) (c : ℚ),
    chainFromB c t = true → (∀ e ∈ t, e.2.1 ≤ e.2.2) → ∀ e ∈ t, c ≤ e.2.1 := by
  intro t
  induction t with
  | nil => intro c _ _ e he; simp at he
  | cons e0 rest ih =>
      intro c hch hw e he
      rw [chainFromB, Bool.and_eq_true, decide_eq_true_eq] at hch
      obtain ⟨hlo, hch2⟩ := hch
      rcases List.mem_cons.mp he with he | he
      · subst he
        exact le_of_eq hlo.symm
      · have h1 := ih e0.2.2 hch2 (fun x hx => hw x (List.mem_cons_of_mem e0 hx)) e he
        have h2 := hw e0 (List.mem_cons_self e0 rest)
        calc c = e0.2.1 := hlo.symm
          _ ≤ e0.2.2 := h2
          _ ≤ e.2.1 := h1

/-- chainFromB entries are ordered: every later entry starts no earlier
than where an earlier one ends. -/
theorem chain_pairwise : ∀ (t : List (ℕ × ℚ × ℚ)) (c : ℚ),
    chainFromB c t = true → (∀ e ∈ t, e.2.1 ≤ e.2.2) →
    t.Pairwise (fun e1 e2 => e1.2.2 ≤ e2.2.1) := by
  intro t
  induction t with
  | nil => intro c _ _; exact List.Pairwise.nil
  | cons e rest ih =>
      intro c hch hw
      rw [chainFromB, Bool.and_eq_true, decide_eq_true_eq] at hch
      obtain ⟨hlo, hch2⟩ := hch
      have hwrest : ∀ x ∈ rest, x.2.1 ≤ x.2.2 :=
        fun x hx => hw x (List.mem_cons_of_mem e hx)
      refine List.Pairwise.cons ?_ (ih e.2.2 hch2 hwrest)
      intro e2 he2
      exact chain_lb rest e.2.2 hch2 hwrest e2 he2

/-- The chain end is at least the start, given ordered endpoints. -/
theorem chainEnd_ge : ∀ (t : List (ℕ × ℚ × ℚ)) (c : ℚ),
    chainFromB c t = true → (∀ e ∈ t, e.2.1 ≤ e.2.2) → c ≤ chainEnd c t := by
  intro t
  induction t with
  | nil => intro c _ _; exact le_refl c
  | cons e rest ih =>
      intro c hch hw
      rw [chainFromB, Bool.and_eq_true, decide_eq_true_eq] at hch
      obtain ⟨hlo, hch2⟩ := hch
      rw [chainEnd]
      have h1 := ih e.2.2 hch2 (fun x hx => hw x (List.mem_cons_of_mem e hx))
      have h2 := hw e (List.mem_cons_self e rest)
      calc c = e.2.1 := hlo.symm
        _ ≤ e.2.2 := h2
        _ ≤ chainEnd e.2.2 rest := h1

/-- The chain intervals cover exactly the half-open interval from the
start cursor to the chain end. -/
theorem chain_union : ∀ (t : List (ℕ × ℚ × ℚ)) (c : ℚ),
    chainFromB c t = true → (∀ e ∈ t, e.2.1 ≤ e.2.2) →
    ∀ x : ℚ, (∃ e ∈ t, e.2.1 ≤ x ∧ x < e.2.2) ↔ (c ≤ x ∧ x < chainEnd c t) := by
  intro t
  induction t with
  | nil =>
      intro c _ _ x
      constructor
      · rintro ⟨e, he, _⟩
        simp at he
      · rintro ⟨h1, h2⟩
        rw [chainEnd] at h2
        linarith
  | cons e rest ih =>
      intro c hch hw x
      rw [chainFromB, Bool.and_eq_true, decide_eq_true_eq] at hch
      obtain ⟨hlo, hch2⟩ := hch
      have hwrest : ∀ y ∈ rest, y.2.1 ≤ y.2.2 :=
        fun y hy => hw y (List.mem_cons_of_mem e hy)
      rw [chainEnd]
      constructor
      · rintro ⟨e2, he2, hx1, hx2⟩
        rcases List.mem_cons.mp he2 with he2 | he2
        · subst he2
          constructor
          · rw [← hlo]; exact hx1
          · exact lt_of_lt_of_le hx2 (chainEnd_ge rest e2.2.2 hch2 hwrest)
        · have := (ih e.2.2 hch2 hwrest x).mp ⟨e2, he2, hx1, hx2⟩
          constructor
          · calc c = e.2.1 := hlo.symm
              _ ≤ e.2.2 := hw e (List.mem_cons_self e rest)
              _ ≤ x := this.1
          · exact this.2
      · rintro ⟨h1, h2⟩
        rcases lt_or_ge x e.2.2 with hx | hx
        · exact ⟨e, List.mem_cons_self e rest, by rw [hlo]; exact h1, hx⟩
        · have := (ih e.2.2 hch2 hwrest x).mpr ⟨hx, h2⟩
          obtain ⟨e2, he2, hh⟩ := this
          exact ⟨e2, List.mem_cons_of_mem e he2, hh⟩

/-- C8 (amended). The cumulative table of arithmetic_compress is a
contiguous chain of ordered half-open intervals starting at 0: each lower
bound is the previous upper bound, the intervals are pairwise disjoint
(ordered end-to-start), their union is exactly [0, c) for the final
cursor c, and each upper bound is the context-rounded sum of the lower
bound and the context-rounded probability count/total - exactly
count/total only up to 1000-digit decimal rounding. -/
theorem cum_table_structure (input : List ℕ) :
    chainFromB 0 (cum_prob input) = true ∧
    (∀ e ∈ cum_prob input, 0 ≤ e.2.1 ∧ e.2.1 ≤ e.2.2 ∧
      e.2.2 = decAdd e.2.1 (decDiv (input.count e.1 : ℚ) (arithTotal input : ℚ))) ∧
    (cum_prob input).Pairwise (fun e1 e2 => e1.2.2 ≤ e2.2.1) ∧
    (∀ x : ℚ, (∃ e ∈ cum_prob input, e.2.1 ≤ x ∧ x < e.2.2) ↔
      0 ≤ x ∧ x < chainEnd 0 (cum_prob input)) := by
  have hch := cumGo_chain input (sortedKeys input) 0
  have hb := cumGo_bounds input (sortedKeys input) 0 (le_refl 0) ctxRound_zero
  have hw : ∀ e ∈ cum_prob input, e.2.1 ≤ e.2.2 := by
    intro e he
    exact (hb e he).2.2
  refine ⟨hch, ?_, ?_, ?_⟩
  · intro e he
    exact ⟨(hb e he).2.1, (hb e he).2.2, cumGo_width input (sortedKeys input) 0 e he⟩
  · exact chain_pairwise (cum_prob input) 0 hch hw
  · exact chain_union (cum_prob input) 0 hch hw

/-- Witness for C8 (amended) at the concrete input [0, 1]. -/
theorem cum_table_structure_witness :
    ((0, (0 : ℚ), Rat.divInt 1 2) ∈ cum_prob [0, 1] ∧
      (0 : ℚ) ≤ ((0, (0 : ℚ), Rat.divInt 1 2) : ℕ × ℚ × ℚ).2.1) ∧
    (∃ e ∈ cum_prob [0, 1], e.2.1 ≤ (0 : ℚ) ∧ (0 : ℚ) < e.2.2) :=
  ⟨⟨by with_unfolding_all decide,
      ((cum_table_structure [0, 1]).2.1 _ (by with_unfolding_all decide)).1⟩,
    ((cum_table_structure [0, 1]).2.2.2 0).mpr
      ⟨le_refl 0, by with_unfolding_all decide⟩⟩
